import Mathlib

/-!
Verification of the text-tree-distance core (repository intsystems/text-tree-distance).

The development shallowly embeds the source files `tted/tree_format.py` and
`tted/computation.py`, and the checkpoint file
`tted/.ipynb_checkpoints/tree_format-checkpoint.py` whose `TextTree` class
(node-list + adjacency representation, the derived depth scan `get_depths` and
the truncation method `at`) holds the repository's truncation.  Trees of the
live source are the `Node` values of `tree_format.py` (a label, a list of
children, a stored depth).  Real-valued costs are modelled as rationals.  The
caller-supplied encoder is modelled as an elementwise function on strings
(a deterministic encoder; the batched list call of the source is its `List.map`),
and the embedding distance as a binary function into the rationals.

Parts of the system that the specification describes but that are not present in
the repository sources (the Zhang-Shasha ordered edit-distance engine provided by
the external `zss` package, the unordered engine of the external `edist` package,
and the normalising `compare` orchestrator) are modelled from the specification;
each such definition carries a doc comment beginning with "Modelled from the
spec:".
-/

/-- The `Node` class of `tree_format.py`: a label, a list of children and a stored
depth (`self.label`, `self.children`, `self.depth`). -/
inductive Node where
  | mk : String → List Node → Nat → Node

/-- Field accessor for `self.label`. -/
def Node.label : Node → String
  | .mk l _ _ => l

/-- Field accessor for `self.children`. -/
def Node.children : Node → List Node
  | .mk _ cs _ => cs

/-- Field accessor for `self.depth`. -/
def Node.depth : Node → Nat
  | .mk _ _ d => d

/-- `Node.get_label(node)` of the zss interface: returns the label field. -/
def Node.get_label (node : Node) : String := node.label

/-- `Node.get_children(node)` of the zss interface: returns the children field. -/
def Node.get_children (node : Node) : List Node := node.children

/-- `Node.get_depth(node)` of `tree_format.py`: returns the node's depth field. -/
def Node.get_depth (node : Node) : Nat := node.depth

mutual
/-- Number of nodes of a tree. -/
def szT : Node → Nat
  | .mk _ cs _ => 1 + szF cs
/-- Number of nodes of a forest (a list of trees). -/
def szF : List Node → Nat
  | [] => 0
  | t :: ts => szT t + szF ts
end

mutual
/-- All nodes occurring in a tree (the tree itself and, recursively, the nodes of
its children). -/
def nodesT : Node → List Node
  | .mk l cs d => Node.mk l cs d :: nodesF cs
/-- All nodes occurring in a forest. -/
def nodesF : List Node → List Node
  | [] => []
  | t :: ts => nodesT t ++ nodesF ts
end

mutual
/-- `extract_sentences(tree)` of `computation.py`: DFS label extraction, the
node's own label first, then the sentences of each child in order. -/
def extract_sentences : Node → List String
  | .mk l cs _ => l :: extract_sentences_children cs
/-- The `for child in Node.get_children(tree)` loop of `extract_sentences`:
`sentences += extract_sentences(child)` in order. -/
def extract_sentences_children : List Node → List String
  | [] => []
  | c :: cs => extract_sentences c ++ extract_sentences_children cs
end

/-!  ## Tree construction from the nested-mapping representation

The exchange format of `json_to_node` / `dict_to_node`: each subtree is a mapping
from a label to the mapping of its children.  A Python dict is embedded as the
list of its entries in insertion order (`JTree.obj`); an entry is a key paired
with a subtree (`JEntry.mk`). -/

mutual
inductive JTree where
  | obj : List JEntry → JTree
inductive JEntry where
  | mk : String → JTree → JEntry
end

mutual
/-- `dict_to_node(json_data, depth)` of `tree_format.py`: returns `None` when the
mapping is empty (`if not json_data`), otherwise takes the first entry
(`next(iter(json_data.items()))`), ignoring any further entries, and builds the
node from it.  `json_to_node` calls it with the default `depth=0`. -/
def dict_to_node : JTree → Nat → Option Node
  | .obj [], _ => none
  | .obj (e :: _), depth => some (entry_to_node e depth)
/-- Builds the node for one `label: children_dict` entry: the loop body of
`dict_to_node` calls `dict_to_node({child_label: child_subtree}, depth+1)` on a
one-entry mapping, which always matches the nonempty case, so the
`if child_node:` filter never drops a child. -/
def entry_to_node : JEntry → Nat → Node
  | .mk label (.obj child_entries), depth =>
      .mk label (entries_to_children child_entries (depth + 1)) depth
/-- The `for child_label, child_subtree in children_dict.items()` loop: each entry
becomes one child, appended in order by `addkid`. -/
def entries_to_children : List JEntry → Nat → List Node
  | [], _ => []
  | e :: rest, d => entry_to_node e d :: entries_to_children rest d
end

mutual
/-- Size of a nested-mapping value. -/
def jsizeT : JTree → Nat
  | .obj es => 1 + jsizeL es
/-- Size of a single entry. -/
def jsizeE : JEntry → Nat
  | .mk _ j => 1 + jsizeT j
/-- Size of an entry list. -/
def jsizeL : List JEntry → Nat
  | [] => 0
  | e :: es => jsizeE e + jsizeL es
end

/-!  ## Context relabeling -/

mutual
/-- The inner `add_context(node, context)` of `tree_with_context` in
`tree_format.py`: creates `Node(context + label, depth=node.depth)` and adds each
child relabeled with the new node's label as its context. -/
def add_context : Node → String → Node
  | .mk l cs d, context => .mk (context ++ l) (add_context_children cs (context ++ l)) d
/-- The `for child_node in Node.get_children(node)` loop of `add_context`:
children are processed in order, each appended by `addkid`. -/
def add_context_children : List Node → String → List Node
  | [], _ => []
  | c :: cs, context => add_context c context :: add_context_children cs context
end

/-- `tree_with_context(input_node)` of `tree_format.py`: relabels every node with
its ancestor labels as context, starting from the empty context. -/
def tree_with_context (input_node : Node) : Node := add_context input_node ""

/-!  ## Spec-modelled error taxonomy -/

/-- Modelled from the spec: the error taxonomy of §7 (`MalformedTreeError`,
`InvalidArgumentError`); neither error class is defined in the sources — the
depth guard of the checkpoint `TextTree.at` raises a built-in `TypeError`,
which the embedding maps to `invalidArgument`. -/
inductive TreeError where
  | malformedTree : TreeError
  | invalidArgument : TreeError
deriving DecidableEq

/-!  ## The checkpoint tree representation and its truncation

`tted/.ipynb_checkpoints/tree_format-checkpoint.py` holds the `TextTree` class:
a tree is a node-label list together with an adjacency list of child indices
(the representation of the external `edist` library), kept in depth-first
preorder, with a derived depth dictionary.  Its `at` method is the repository's
truncation and is embedded here. -/

/-- The static method `TextTree.get_depths(nodes, adj)` of the checkpoint
source: starting from the dictionary `{0: 1}` (the root has derived depth 1),
scan the node indices in ascending order and assign every child of node `i` the
depth `depths[i] + 1`.  The scan relies on the depth-first preorder numbering
(each child carries a larger index than its parent), which the constructor's
structure check and `dict_to_nodes_and_adj` guarantee; a lookup of a never
assigned entry (a `KeyError` in Python) is modelled as `none`, and an
out-of-range adjacency row (an `IndexError`) as the empty `getD` default. -/
def get_depths (nodes : List String) (adj : List (List Nat)) : Nat → Option Nat :=
  (List.range nodes.length).foldl
    (fun depths i =>
      (adj.getD i []).foldl
        (fun ds child => fun x => if x = child then (ds i).map (· + 1) else ds x)
        depths)
    (fun x => if x = 0 then some 1 else none)

/-- The depth scan of `get_depths` stopped after the first `m` node indices
(`get_depths nodes adj = depthScan adj nodes.length`); the induction handle for
the scan. -/
def depthScan (adj : List (List Nat)) (m : Nat) : Nat → Option Nat :=
  (List.range m).foldl
    (fun depths i =>
      (adj.getD i []).foldl
        (fun ds child => fun x => if x = child then (ds i).map (· + 1) else ds x)
        depths)
    (fun x => if x = 0 then some 1 else none)

/-- Validity of a node-list + adjacency-list tree.  Modelled from the spec
(§3): exactly one root (node 0), every non-root node in exactly one parent's
child list, acyclicity, all indices in bounds — the invariants checked at
construction time by `tree_utils.check_tree_structure` of the external `edist`
package — together with the depth-first preorder numbering (every child has a
larger index than its parent) that the representation and the depth scan rely
on. -/
def validTree (nodes : List String) (adj : List (List Nat)) : Prop :=
  adj.length = nodes.length
  ∧ 0 < nodes.length
  ∧ (∀ i c, c ∈ adj.getD i [] → i < c ∧ c < nodes.length)
  ∧ (∀ c i j, c ∈ adj.getD i [] → c ∈ adj.getD j [] → i = j)
  ∧ (∀ j, 0 < j → j < nodes.length → ∃ i, j ∈ adj.getD i [])

/-- The method `TextTree.at(depth)` of the checkpoint source (the repository's
truncation): raises if `depth < 1` (a `TypeError` in the source, the
`InvalidArgumentError` of the spec's taxonomy), before anything else; otherwise
keeps the nodes of derived depth at most `depth` in order, empties the child
list of the nodes at exactly the cut depth (they become leaves), and renumbers
the surviving children through the position of each kept old index in the
selection (the `new_node_mapping` dictionary, modelled by `List.indexOf`, which
agrees with it because the selection has no duplicates).  A missing mapping
entry or out-of-range access, which would raise in Python, is modelled by the
`indexOf`/`getD` defaults; the validity hypotheses of the theorems rule both
out. -/
def textTreeAt (nodes : List String) (adj : List (List Nat)) (depth : Int) :
    Except TreeError (List String × List (List Nat)) :=
  if depth < 1 then .error .invalidArgument
  else
    let depths := get_depths nodes adj
    let dOf : Nat → Int := fun i => ((depths i).getD 0 : Int)
    let selected_nodes := (List.range nodes.length).filter (fun i => dOf i ≤ depth)
    let new_nodes := selected_nodes.map (fun i => nodes.getD i "")
    let trimmed_adj := selected_nodes.map
      (fun i => if dOf i < depth then adj.getD i [] else [])
    let new_node_mapping : Nat → Nat := fun node => selected_nodes.indexOf node
    let new_adj := trimmed_adj.map (fun row => row.map new_node_mapping)
    .ok (new_nodes, new_adj)

/-- Proof view of `TextTree.at`: the selected old indices (derived depth at most
the cut), in ascending order. -/
def selIdx (nodes : List String) (adj : List (List Nat)) (k : Int) : List Nat :=
  (List.range nodes.length).filter
    (fun i => ((get_depths nodes adj i).getD 0 : Int) ≤ k)

/-- Proof view of `TextTree.at`: the node labels it returns. -/
def atNodes (nodes : List String) (adj : List (List Nat)) (k : Int) : List String :=
  (selIdx nodes adj k).map (fun i => nodes.getD i "")

/-- Proof view of `TextTree.at`: the renumbered adjacency it returns. -/
def atAdj (nodes : List String) (adj : List (List Nat)) (k : Int) : List (List Nat) :=
  List.map (fun row => row.map (fun node => (selIdx nodes adj k).indexOf node))
    ((selIdx nodes adj k).map
      (fun i => if ((get_depths nodes adj i).getD 0 : Int) < k then adj.getD i [] else []))

mutual
/-- Level-trimming of a `Node` tree: keeps the topmost `k` levels, following
§3's description of the truncation step.  Used only inside the spec-modelled
orchestrator `compare` (§4.4 step 1), in a branch no claim exercises: the
repository's own truncation is `TextTree.at` on the node-list representation,
embedded above as `textTreeAt`, and the truncation claims are settled against
that embedding. -/
def trimToLevel : Node → Nat → Node
  | .mk l _ d, 0 => .mk l [] d
  | .mk l _ d, 1 => .mk l [] d
  | .mk l cs d, k + 2 => .mk l (trimToLevelF cs (k + 1)) d
/-- Level-trimming of every tree of a forest. -/
def trimToLevelF : List Node → Nat → List Node
  | [], _ => []
  | t :: ts, k => trimToLevel t k :: trimToLevelF ts k
end

/-!  ## Depth bookkeeping and structural views -/

/-- The stored-depth invariant: the node's `depth` field is `d` and, recursively,
every child satisfies the invariant at `d + 1`. -/
inductive depthsFrom : Nat → Node → Prop where
  | node : ∀ l cs d, (∀ c ∈ cs, depthsFrom (d + 1) c) → depthsFrom d (Node.mk l cs d)

/-- The node reached from `t` by following a list of child indices. -/
def getAt : Node → List Nat → Option Node
  | t, [] => some t
  | t, i :: p => (t.children[i]?).bind (fun c => getAt c p)

/-- The concatenation of the labels along the root-to-node path given by a list
of child indices (the spec's ancestor-path prefix followed by the node's own
label); `none` when the path leaves the tree. -/
def pathConcat : Node → List Nat → Option String
  | t, [] => some t.label
  | t, i :: p => (t.children[i]?).bind (fun c => (pathConcat c p).map (fun s => t.label ++ s))

/-- A tree with the labels erased: the adjacency structure together with the
stored depth fields. -/
inductive Skel where
  | mk : Nat → List Skel → Skel

mutual
/-- Label-erased skeleton of a tree. -/
def skelT : Node → Skel
  | .mk _ cs d => .mk d (skelF cs)
/-- Label-erased skeletons of a forest. -/
def skelF : List Node → List Skel
  | [] => []
  | t :: ts => skelT t :: skelF ts
end

/-!  ## Cost aggregation over whole trees and forests -/

mutual
/-- Sum of a per-node cost over all nodes of a tree (the price of inserting or
deleting the whole subtree). -/
def costT (f : Node → ℚ) : Node → ℚ
  | .mk l cs d => f (.mk l cs d) + costF f cs
/-- Sum of a per-node cost over all nodes of a forest. -/
def costF (f : Node → ℚ) : List Node → ℚ
  | [] => 0
  | t :: ts => costT f t + costF f ts
end

/-!  ## The ordered edit-distance engine

Modelled from the spec (§4.3, ordered variant) and standing in for the external
`zss.distance`: the forest-distance recurrence.  `del` prices deleting a node of
the first forest, `ins` prices inserting a node of the second, `sub` prices
substituting the one for the other; an empty forest against a forest costs the
sum of the unary costs of all its nodes, and otherwise the minimum is taken over
deleting the last root (its children replace it in the forest), inserting the
last root of the other side, and substituting last root for last root (children
forests against each other, remainders against each other). -/

/-- Modelled from the spec: the ordered forest edit distance of §4.3.  The
keyroot organisation of the source algorithm is an evaluation strategy for this
same recurrence and does not change the value. -/
def fdist (del ins : Node → ℚ) (sub : Node → Node → ℚ) : List Node → List Node → ℚ
  | [], F2 => costF ins F2
  | t :: F, [] => costF del (t :: F)
  | x1 :: R1, x2 :: R2 =>
    let t1 := (x1 :: R1).getLast (List.cons_ne_nil x1 R1)
    let t2 := (x2 :: R2).getLast (List.cons_ne_nil x2 R2)
    min (min (del t1 + fdist del ins sub ((x1 :: R1).dropLast ++ t1.children) (x2 :: R2))
             (ins t2 + fdist del ins sub (x1 :: R1) ((x2 :: R2).dropLast ++ t2.children)))
        (sub t1 t2 + fdist del ins sub t1.children t2.children +
           fdist del ins sub (x1 :: R1).dropLast (x2 :: R2).dropLast)
termination_by F1 F2 => szF F1 + szF F2
decreasing_by
  all_goals
    have happ : ∀ a b : List Node, szF (a ++ b) = szF a + szF b := by
      intro a b
      induction a with
      | nil => simp [szF]
      | cons u us ih => simp [szF, ih]; ring
  all_goals
    have hTe : ∀ u : Node, szT u = 1 + szF u.children := by
      intro u
      cases u with
      | mk l cs d => rfl
  all_goals
    have hTp : ∀ u : Node, 1 ≤ szT u := by
      intro u
      rw [hTe u]
      omega
  all_goals
    have hsplit : ∀ (F : List Node) (h : F ≠ []), szF F = szF F.dropLast + szT (F.getLast h) := by
      intro F h
      conv_lhs => rw [← List.dropLast_append_getLast h]
      rw [happ]
      simp [szF]
  · have e1 := hsplit (x1 :: R1) (List.cons_ne_nil x1 R1)
    have h3 := hTe ((x1 :: R1).getLast (List.cons_ne_nil x1 R1))
    rw [happ]
    omega
  · have e2 := hsplit (x2 :: R2) (List.cons_ne_nil x2 R2)
    have h4 := hTe ((x2 :: R2).getLast (List.cons_ne_nil x2 R2))
    rw [happ]
    omega
  · have e1 := hsplit (x1 :: R1) (List.cons_ne_nil x1 R1)
    have e2 := hsplit (x2 :: R2) (List.cons_ne_nil x2 R2)
    have h3 := hTe ((x1 :: R1).getLast (List.cons_ne_nil x1 R1))
    have h4 := hTe ((x2 :: R2).getLast (List.cons_ne_nil x2 R2))
    omega
  · have e1 := hsplit (x1 :: R1) (List.cons_ne_nil x1 R1)
    have e2 := hsplit (x2 :: R2) (List.cons_ne_nil x2 R2)
    have p1 := hTp ((x1 :: R1).getLast (List.cons_ne_nil x1 R1))
    have p2 := hTp ((x2 :: R2).getLast (List.cons_ne_nil x2 R2))
    omega

/-!  ## The unordered edit-distance engine

Modelled from the spec (§4.3, unordered variant): recursive alignment in which
the children of two aligned nodes are matched by a minimum-cost assignment,
unmatched children of the first forest being deleted wholesale and unmatched
children of the second inserted wholesale.  The top level is the matching of the
two root forests (so replacing one root by the other via a full delete and
insert, always a legal edit script, is also considered). -/

mutual
/-- Modelled from the spec: the cost of aligning node `t1` with node `t2` in the
unordered engine: substitution at the aligned roots plus the optimal assignment
between their children sets. -/
def udist (del ins : Node → ℚ) (sub : Node → Node → ℚ) (t1 t2 : Node) : ℚ :=
  sub t1 t2 + umatch del ins sub t1.children t2.children
termination_by (szT t1 + szT t2, 0, 0)
decreasing_by
  apply Prod.Lex.left
  have hTe : ∀ u : Node, szT u = 1 + szF u.children := by
    intro u
    cases u with
    | mk l cs d => rfl
  simp only [hTe]
  omega

/-- Modelled from the spec: the minimum-cost assignment between two forests; a
tree of the first forest is either aligned with a tree of the second or deleted
wholesale, and the trees of the second forest left unmatched at the end are
inserted wholesale. -/
def umatch (del ins : Node → ℚ) (sub : Node → Node → ℚ) : List Node → List Node → ℚ
  | [], F2 => costF ins F2
  | t :: F1, F2 => pick del ins sub t F1 [] F2
termination_by F1 F2 => (szF F1 + szF F2, 2, 0)

/-- Choice of a partner for `t` inside the minimum-cost assignment: `pre` holds
the already-passed-over candidates, `rem` the remaining ones; `t` is aligned with
some remaining candidate or, when none is chosen, deleted wholesale. -/
def pick (del ins : Node → ℚ) (sub : Node → Node → ℚ)
    (t : Node) (F1 pre : List Node) : List Node → ℚ
  | [] => costT del t + umatch del ins sub F1 pre.reverse
  | g :: post =>
    min (udist del ins sub t g + umatch del ins sub F1 (pre.reverse ++ post))
        (pick del ins sub t F1 (g :: pre) post)
termination_by rem => (szT t + szF F1 + szF pre + szF rem, 1, rem.length)
decreasing_by
  all_goals
    have happ : ∀ a b : List Node, szF (a ++ b) = szF a + szF b := by
      intro a b
      induction a with
      | nil => simp [szF]
      | cons u us ih => simp [szF, ih]; ring
  all_goals
    have hTe : ∀ u : Node, szT u = 1 + szF u.children := by
      intro u
      cases u with
      | mk l cs d => rfl
  all_goals
    have hTp : ∀ u : Node, 1 ≤ szT u := by
      intro u
      rw [hTe u]
      omega
  all_goals
    have hrev : ∀ F : List Node, szF F.reverse = szF F := by
      intro F
      induction F with
      | nil => rfl
      | cons u us ih => simp [List.reverse_cons, happ, szF, ih]; ring
  · apply Prod.Lex.left
    have := hTp t
    simp only [hrev, szF]
    omega
  · rename_i t0
    rcases Nat.lt_or_ge (szT t0 + szT t) (szT t0 + szF F1 + szF pre + szF (t :: ts)) with h | h
    · exact Prod.Lex.left _ _ h
    · have hle : szT t0 + szT t ≤ szT t0 + szF F1 + szF pre + szF (t :: ts) := by
        simp only [szF]
        omega
      rw [← le_antisymm hle h]
      exact Prod.Lex.right _ (Prod.Lex.left _ _ (by omega))
  · apply Prod.Lex.left
    rename_i t0
    have := hTp t0
    have := hTp t
    simp only [happ, hrev, szF]
    omega
  · rename_i t0
    have he : szT t0 + szF F1 + szF (t :: pre) + szF ts
        = szT t0 + szF F1 + szF pre + szF (t :: ts) := by
      simp only [szF]
      omega
    rw [he]
    exact Prod.Lex.right _ (Prod.Lex.right _ (by simp [List.length_cons]))
end

/-!  ## The cost-table builder and the two comparison functions of
`computation.py` -/

/-- Insertion into a Python dict, modelled as a function update (later insertions
shadow earlier ones, other keys unaffected). -/
def dictInsert {A : Type} (m : String → Option A) (k : String) (v : A) :
    String → Option A :=
  fun x => if x = k then some v else m x

/-- `precompute_dists(tree_a, tree_b, encoder, embedding_dist)` of
`computation.py`.  The duck-typed `encoder` is modelled elementwise: the batched
calls `encoder(sentences_a)` and `encoder(sentences_b)` are `List.map encoder`,
and `encoder("")` is `encoder ""`.  Besides `sentence_dists` (the pairwise
substitution table) and `sentence_weights` (the unary table), the model returns
the list of the arguments of the encoder calls the source performs, in call
order: the two label lists and the single empty string. -/
def precompute_dists {E : Type} (tree_a tree_b : Node) (encoder : String → E)
    (embedding_dist : E → E → ℚ) :
    (String → Option (String → Option ℚ)) × (String → Option ℚ) ×
      List (List String ⊕ String) :=
  let sentences_a := extract_sentences tree_a
  let sentences_b := extract_sentences tree_b
  let embeddings_a := sentences_a.map encoder
  let embeddings_b := sentences_b.map encoder
  let init : String → Option (String → Option ℚ) :=
    sentences_a.foldl (fun d s => dictInsert d s (fun _ => none)) (fun _ => none)
  let sentence_dists :=
    (sentences_a.zip embeddings_a).foldl
      (fun d p =>
        (sentences_b.zip embeddings_b).foldl
          (fun d' q =>
            dictInsert d' p.1
              (dictInsert ((d' p.1).getD (fun _ => none)) q.1 (embedding_dist p.2 q.2)))
          d)
      init
  let empty_emb := encoder ""
  let sentence_weights :=
    ((sentences_a ++ sentences_b).zip (embeddings_a ++ embeddings_b)).foldl
      (fun w q => dictInsert w q.1 (embedding_dist q.2 empty_emb)) (fun _ => none)
  (sentence_dists, sentence_weights, [Sum.inl sentences_a, Sum.inl sentences_b, Sum.inr ""])

/-- `text_tree_distance(tree_a, tree_b, encoder, embedding_dist, depth_factor,
use_context)` of `computation.py`: optional context relabeling, precomputed
label-keyed cost tables, and the ordered engine (`zss.distance`, modelled by
`fdist`).  A Python `KeyError` on a missing table entry is modelled by the
defaults of `Option.getD`; the refinement theorems show every lookup the engine
performs hits the table. -/
def text_tree_distance {E : Type} (tree_a tree_b : Node) (encoder : String → E)
    (embedding_dist : E → E → ℚ) (depth_factor : ℚ) (use_context : Bool) : ℚ :=
  let ta := if use_context then tree_with_context tree_a else tree_a
  let tb := if use_context then tree_with_context tree_b else tree_b
  let pd := precompute_dists ta tb encoder embedding_dist
  let sentence_dists := pd.1
  let sentence_weights := pd.2.1
  let update_cost : Node → Node → ℚ := fun node_a node_b =>
    (((sentence_dists (Node.get_label node_a)).getD (fun _ => none))
        (Node.get_label node_b)).getD 0
      * depth_factor ^ Node.get_depth node_a
  let insert_cost : Node → ℚ := fun node =>
    ((sentence_weights (Node.get_label node)).getD 0) * depth_factor ^ Node.get_depth node
  let remove_cost : Node → ℚ := fun node =>
    ((sentence_weights (Node.get_label node)).getD 0) * depth_factor ^ Node.get_depth node
  fdist remove_cost insert_cost update_cost [ta] [tb]

/-- `text_tree_distance_w_o_precomputation(...)` of `computation.py`: the same
comparison but encoding labels on demand through `similarity_func`; note that its
insertion and removal costs carry no depth factor. -/
def text_tree_distance_w_o_precomputation {E : Type} (tree_a tree_b : Node)
    (encoder : String → E) (embedding_dist : E → E → ℚ) (depth_factor : ℚ)
    (use_context : Bool) : ℚ :=
  let ta := if use_context then tree_with_context tree_a else tree_a
  let tb := if use_context then tree_with_context tree_b else tree_b
  let similarity_func : String → String → ℚ := fun sentence_a sentence_b =>
    embedding_dist (encoder sentence_a) (encoder sentence_b)
  let update_cost : Node → Node → ℚ := fun node_a node_b =>
    similarity_func (Node.get_label node_a) (Node.get_label node_b)
      * depth_factor ^ Node.get_depth node_a
  let insert_cost : Node → ℚ := fun node => similarity_func (Node.get_label node) ""
  let remove_cost : Node → ℚ := fun node => similarity_func (Node.get_label node) ""
  fdist remove_cost insert_cost update_cost [ta] [tb]

/-!  ## The spec-modelled metric orchestrator -/

/-- The labels of an optional tree (an absent tree is the empty, depth-0 tree of
the spec). -/
def optLabels : Option Node → List String
  | none => []
  | some t => extract_sentences t

/-- The size of an optional tree. -/
def optSize : Option Node → Nat
  | none => 0
  | some t => szT t

/-- Modelled from the spec: the raw engine result of `compare` (§4.4, step 4):
the ordered or the unordered engine on the two (possibly absent) trees, with
label-keyed substitution and unary costs derived from the two capabilities. -/
def rawDistance {E : Type} (treeA treeB : Option Node) (encode : String → E)
    (embeddingDistance : E → E → ℚ) (unordered : Bool) : ℚ :=
  let sub : Node → Node → ℚ := fun a b =>
    embeddingDistance (encode a.label) (encode b.label)
  let uny : Node → ℚ := fun n => embeddingDistance (encode n.label) (encode "")
  if unordered then umatch uny uny sub treeA.toList treeB.toList
  else fdist uny uny sub treeA.toList treeB.toList

/-- Modelled from the spec: the maximum unary cost observed across all labels of
both transformed trees (§4.4, step 5), 0 when there is no label. -/
def maxUnary {E : Type} (treeA treeB : Option Node) (encode : String → E)
    (embeddingDistance : E → E → ℚ) : ℚ :=
  ((optLabels treeA ++ optLabels treeB).map
      (fun l => embeddingDistance (encode l) (encode ""))).foldl max 0

/-- Modelled from the spec: `compare` (§4.4) without the truncation step:
optional context relabeling, cost building, ordered or unordered engine, and the
optional rescaling `2*raw / (maxUnaryCost * (sizeA + sizeB) + raw)` with the
both-trees-empty guard. -/
def compareCore {E : Type} (treeA treeB : Option Node) (encode : String → E)
    (embeddingDistance : E → E → ℚ) (normalize unordered useContext : Bool) : ℚ :=
  let A := if useContext then treeA.map tree_with_context else treeA
  let B := if useContext then treeB.map tree_with_context else treeB
  let raw := rawDistance A B encode embeddingDistance unordered
  if normalize then
    match A, B with
    | none, none => 0
    | _, _ =>
      2 * raw /
        (maxUnary A B encode embeddingDistance * ((optSize A : ℚ) + (optSize B : ℚ)) + raw)
  else raw

/-- Modelled from the spec: `compare(treeA, treeB, encode, embeddingDistance,
normalize, unordered, useContext, depthLimit)` (§4.4): truncation first (failing
with `InvalidArgumentError` on a depth limit below 1, before anything else), then
the core comparison. -/
def compare {E : Type} (treeA treeB : Option Node) (encode : String → E)
    (embeddingDistance : E → E → ℚ) (normalize unordered useContext : Bool)
    (depthLimit : Option Int) : Except TreeError ℚ :=
  match depthLimit with
  | none =>
      .ok (compareCore treeA treeB encode embeddingDistance normalize unordered useContext)
  | some dl =>
      if dl < 1 then .error .invalidArgument
      else
        .ok (compareCore (treeA.map (fun t => trimToLevel t dl.toNat))
          (treeB.map (fun t => trimToLevel t dl.toNat))
          encode embeddingDistance normalize unordered useContext)

/-!  # Theorems

First the library of lemmas about the embedded definitions, then one theorem per
claim (with witnesses and counterexamples where required).
-/

theorem szT_eq (t : Node) : szT t = 1 + szF t.children := by
  cases t with
  | mk l cs d => rfl

theorem szT_pos (t : Node) : 1 ≤ szT t := by
  rw [szT_eq]
  omega

theorem szF_append (a b : List Node) : szF (a ++ b) = szF a + szF b := by
  induction a with
  | nil => simp [szF]
  | cons t ts ih => simp [szF, ih]; ring

theorem szF_reverse (F : List Node) : szF F.reverse = szF F := by
  induction F with
  | nil => rfl
  | cons t ts ih => simp [List.reverse_cons, szF_append, szF, ih]; ring

theorem szT_le_of_mem {t : Node} {F : List Node} (h : t ∈ F) : szT t ≤ szF F := by
  induction F with
  | nil => cases h
  | cons x xs ih =>
    rcases List.mem_cons.mp h with rfl | h
    · simp [szF]
    · have := ih h
      simp [szF]
      omega

/-- Structural induction principle for `Node` with membership hypotheses on the
children list. -/
theorem node_recurse (P : Node → Prop)
    (h : ∀ l cs d, (∀ c, c ∈ cs → P c) → P (Node.mk l cs d)) : ∀ t, P t := by
  have key : ∀ n t, szT t ≤ n → P t := by
    intro n
    induction n with
    | zero => intro t hle; have := szT_pos t; omega
    | succ n ih =>
      intro t hle
      cases t with
      | mk l cs d =>
        refine h l cs d ?_
        intro c hc
        have h1 := szT_le_of_mem hc
        have h2 : szT (Node.mk l cs d) = 1 + szF cs := rfl
        exact ih c (by omega)
  intro t
  exact key (szT t) t le_rfl

theorem nodesF_append (a b : List Node) : nodesF (a ++ b) = nodesF a ++ nodesF b := by
  induction a with
  | nil => simp [nodesF]
  | cons t ts ih => simp [nodesF, ih]

theorem self_mem_nodesT (t : Node) : t ∈ nodesT t := by
  cases t with
  | mk l cs d => simp [nodesT]

theorem nodesT_eq (t : Node) : nodesT t = t :: nodesF t.children := by
  cases t with
  | mk l cs d => rfl

/-- The DFS sentence list is exactly the label of every node of the tree. -/
theorem extract_sentences_eq_labels : ∀ t : Node,
    extract_sentences t = (nodesT t).map Node.label := by
  intro t
  induction t using node_recurse with
  | h l cs d ih =>
    show l :: extract_sentences_children cs = Node.label (Node.mk l cs d) :: (nodesF cs).map Node.label
    rw [Node.label]
    congr 1
    induction cs with
    | nil => rfl
    | cons c cs ihl =>
      have hc := ih c (by simp)
      have hrest : extract_sentences_children cs = (nodesF cs).map Node.label := by
        apply ihl
        intro c' hc'
        exact ih c' (by simp [hc'])
      simp [extract_sentences_children, nodesF, hc, hrest]

theorem entries_to_children_eq_map (es : List JEntry) (d : Nat) :
    entries_to_children es d = es.map (fun e => entry_to_node e d) := by
  induction es with
  | nil => rfl
  | cons e rest ih => simp [entries_to_children, ih]

theorem add_context_children_eq_map (cs : List Node) (ctx : String) :
    add_context_children cs ctx = cs.map (fun c => add_context c ctx) := by
  induction cs with
  | nil => rfl
  | cons c cs ih => simp [add_context_children, ih]

theorem jsizeE_le_of_mem {e : JEntry} {es : List JEntry} (h : e ∈ es) :
    jsizeE e ≤ jsizeL es := by
  induction es with
  | nil => cases h
  | cons x xs ih =>
    rcases List.mem_cons.mp h with rfl | h
    · simp [jsizeL]
    · have := ih h
      simp [jsizeL]
      omega

/-- Structural induction principle for entries of the nested-mapping format. -/
theorem jentry_recurse (P : JEntry → Prop)
    (h : ∀ l es, (∀ e, e ∈ es → P e) → P (.mk l (.obj es))) : ∀ e, P e := by
  have key : ∀ n e, jsizeE e ≤ n → P e := by
    intro n
    induction n with
    | zero =>
      intro e hle
      cases e with
      | mk l j => simp [jsizeE] at hle
    | succ n ih =>
      intro e hle
      cases e with
      | mk l j =>
        cases j with
        | obj es =>
          refine h l es ?_
          intro e' he'
          have h1 := jsizeE_le_of_mem he'
          have h2 : jsizeE (JEntry.mk l (JTree.obj es)) = 1 + (1 + jsizeL es) := rfl
          exact ih e' (by omega)
  intro e
  exact key (jsizeE e) e le_rfl

/-- Each entry produces a node whose stored depths satisfy the invariant at the
depth it is built with. -/
theorem entry_to_node_depths : ∀ e : JEntry, ∀ d : Nat, depthsFrom d (entry_to_node e d) := by
  intro e
  induction e using jentry_recurse with
  | h l es ih =>
    intro d
    show depthsFrom d (Node.mk l (entries_to_children es (d + 1)) d)
    refine depthsFrom.node l _ d ?_
    intro c hc
    rw [entries_to_children_eq_map] at hc
    obtain ⟨e', he', rfl⟩ := List.mem_map.mp hc
    exact ih e' he' (d + 1)

/-- Context relabeling rewrites labels but copies the `depth` field unchanged. -/
theorem add_context_depths : ∀ t : Node, ∀ d : Nat, ∀ ctx : String,
    depthsFrom d t → depthsFrom d (add_context t ctx) := by
  intro t
  induction t using node_recurse with
  | h l cs dep ih =>
    intro d ctx h0
    cases h0 with
    | node _ _ _ hc =>
      show depthsFrom dep (Node.mk (ctx ++ l) (add_context_children cs (ctx ++ l)) dep)
      refine depthsFrom.node _ _ dep ?_
      intro c hcm
      rw [add_context_children_eq_map] at hcm
      obtain ⟨c', hc', rfl⟩ := List.mem_map.mp hcm
      exact ih c' hc' (dep + 1) (ctx ++ l) (hc c' hc')

theorem skelF_eq_map (cs : List Node) : skelF cs = cs.map skelT := by
  induction cs with
  | nil => rfl
  | cons c cs ih => simp [skelF, ih]

/-- Context relabeling is structure-preserving: the label-erased skeleton is
unchanged. -/
theorem add_context_skel : ∀ t : Node, ∀ ctx : String, skelT (add_context t ctx) = skelT t := by
  intro t
  induction t using node_recurse with
  | h l cs d ih =>
    intro ctx
    show Skel.mk d (skelF (add_context_children cs (ctx ++ l))) = Skel.mk d (skelF cs)
    rw [add_context_children_eq_map, skelF_eq_map, skelF_eq_map, List.map_map]
    congr 1
    apply List.map_congr_left
    intro c hc
    simp only [Function.comp_apply]
    exact ih c hc (ctx ++ l)

/-- Context relabeling preserves the node count. -/
theorem add_context_szT : ∀ t : Node, ∀ ctx : String, szT (add_context t ctx) = szT t := by
  intro t
  induction t using node_recurse with
  | h l cs d ih =>
    intro ctx
    show 1 + szF (add_context_children cs (ctx ++ l)) = 1 + szF cs
    congr 1
    induction cs with
    | nil => rfl
    | cons c cs ihl =>
      have hc : szT (add_context c (ctx ++ l)) = szT c := ih c (by simp) (ctx ++ l)
      have hrest : szF (add_context_children cs (ctx ++ l)) = szF cs := by
        apply ihl
        intro c' hc'
        exact ih c' (by simp [hc'])
      simp [add_context_children, szF, hc, hrest]

theorem add_context_label (t : Node) (ctx : String) :
    (add_context t ctx).label = ctx ++ t.label := by
  cases t with
  | mk l cs d => rfl

theorem add_context_children_eq (t : Node) (ctx : String) :
    (add_context t ctx).children = add_context_children t.children (ctx ++ t.label) := by
  cases t with
  | mk l cs d => rfl

/-- The label found in the relabeled tree at any path is the accumulated context
followed by the concatenation of the original labels along that path. -/
theorem add_context_pathConcat : ∀ p : List Nat, ∀ t : Node, ∀ ctx : String,
    (getAt (add_context t ctx) p).map Node.label
      = (pathConcat t p).map (fun s => ctx ++ s) := by
  intro p
  induction p with
  | nil =>
    intro t ctx
    simp [getAt, pathConcat, add_context_label]
  | cons i p ih =>
    intro t ctx
    have hL : getAt (add_context t ctx) (i :: p)
        = (t.children[i]?).bind (fun c => getAt (add_context c (ctx ++ t.label)) p) := by
      simp only [getAt, add_context_children_eq, add_context_children_eq_map,
        List.getElem?_map]
      cases t.children[i]? <;> simp
    rw [hL]
    cases hc : t.children[i]? with
    | none => simp [pathConcat, hc]
    | some c =>
      simp only [hc, Option.some_bind]
      rw [ih c (ctx ++ t.label)]
      simp only [pathConcat, hc, Option.some_bind]
      cases pathConcat c p with
      | none => simp
      | some s => simp [String.append_assoc]

/-!  ## The depth scan and the truncation of the checkpoint representation -/

/-- One row of the depth scan: assigning every member of `cs` the depth
`ds i + 1` changes the table exactly on `cs`, provided the scanning index `i`
is itself not a member (children are strictly larger than their parent). -/
theorem depth_inner_fold (i : Nat) :
    ∀ (cs : List Nat) (ds : Nat → Option Nat), i ∉ cs → ∀ x,
      (cs.foldl (fun ds child => fun x => if x = child then (ds i).map (· + 1) else ds x) ds) x
        = if x ∈ cs then (ds i).map (· + 1) else ds x := by
  intro cs
  induction cs with
  | nil =>
    intro ds _ x
    simp
  | cons c cs ih =>
    intro ds h x
    have hic : i ≠ c := fun he => h (he ▸ List.mem_cons_self c cs)
    have hics : i ∉ cs := fun hm => h (List.mem_cons_of_mem c hm)
    rw [List.foldl_cons, ih _ hics x]
    simp only [List.mem_cons]
    by_cases hxcs : x ∈ cs
    · simp [hxcs, hic]
    · by_cases hxc : x = c
      · subst hxc
        simp [hxcs, hic]
      · simp [hxcs, hxc]

theorem depthScan_succ (adj : List (List Nat)) (m : Nat) :
    depthScan adj (m + 1)
      = (adj.getD m []).foldl
          (fun ds child => fun x => if x = child then (ds m).map (· + 1) else ds x)
          (depthScan adj m) := by
  unfold depthScan
  rw [List.range_succ, List.foldl_append]
  rfl

/-- Invariant of the depth scan after the first `m` node indices: the root keeps
depth 1, and every child of an already scanned parent carries its parent's
depth plus 1.  Requires the preorder property (each child strictly larger than
its parent) and unique parents. -/
theorem depthScan_inv (adj : List (List Nat))
    (hchild : ∀ i c, c ∈ adj.getD i [] → i < c)
    (huniq : ∀ c i j, c ∈ adj.getD i [] → c ∈ adj.getD j [] → i = j) :
    ∀ m : Nat,
      depthScan adj m 0 = some 1
      ∧ (∀ i, i < m → ∀ c, c ∈ adj.getD i [] →
          depthScan adj m c = (depthScan adj m i).map (· + 1)) := by
  intro m
  induction m with
  | zero =>
    refine ⟨rfl, ?_⟩
    intro i hi
    exact absurd hi (Nat.not_lt_zero i)
  | succ m ih =>
    obtain ⟨ih0, ihrel⟩ := ih
    have hm : m ∉ adj.getD m [] := fun hmem => absurd (hchild m m hmem) (lt_irrefl m)
    have hstep : ∀ x, depthScan adj (m + 1) x
        = if x ∈ adj.getD m [] then (depthScan adj m m).map (· + 1) else depthScan adj m x := by
      intro x
      rw [depthScan_succ]
      exact depth_inner_fold m (adj.getD m []) (depthScan adj m) hm x
    constructor
    · rw [hstep 0]
      have h0 : (0 : Nat) ∉ adj.getD m [] := fun hmem => by
        have := hchild m 0 hmem
        omega
      rw [if_neg h0]
      exact ih0
    · intro i hi c hc
      rw [hstep c, hstep i]
      by_cases him : i = m
      · subst him
        rw [if_pos hc, if_neg hm]
      · have hi' : i < m := by omega
        have hcnot : c ∉ adj.getD m [] := fun hmem => him (huniq c i m hc hmem)
        have hinot : i ∉ adj.getD m [] := fun hmem => by
          have := hchild m i hmem
          omega
        rw [if_neg hcnot, if_neg hinot]
        exact ihrel i hi' c hc

/-- The derived depth of the root node is 1. -/
theorem get_depths_root (nodes : List String) (adj : List (List Nat))
    (hchild : ∀ i c, c ∈ adj.getD i [] → i < c)
    (huniq : ∀ c i j, c ∈ adj.getD i [] → c ∈ adj.getD j [] → i = j) :
    get_depths nodes adj 0 = some 1 :=
  (depthScan_inv adj hchild huniq nodes.length).1

/-- The derived depth of a child is its parent's derived depth plus 1. -/
theorem get_depths_child (nodes : List String) (adj : List (List Nat))
    (hchild : ∀ i c, c ∈ adj.getD i [] → i < c)
    (huniq : ∀ c i j, c ∈ adj.getD i [] → c ∈ adj.getD j [] → i = j)
    (i : Nat) (hi : i < nodes.length) (c : Nat) (hc : c ∈ adj.getD i []) :
    get_depths nodes adj c = (get_depths nodes adj i).map (· + 1) :=
  (depthScan_inv adj hchild huniq nodes.length).2 i hi c hc

/-- In a valid tree every node receives a derived depth, and it is at least 1
(so the `KeyError` the Python lookup could raise never fires). -/
theorem get_depths_defined (nodes : List String) (adj : List (List Nat))
    (hv : validTree nodes adj) :
    ∀ j, j < nodes.length → ∃ v, get_depths nodes adj j = some v ∧ 1 ≤ v := by
  obtain ⟨hlen, hpos, hchild, huniq, hparent⟩ := hv
  have hch : ∀ i c, c ∈ adj.getD i [] → i < c := fun i c h => (hchild i c h).1
  have key : ∀ N j, j ≤ N → j < nodes.length →
      ∃ v, get_depths nodes adj j = some v ∧ 1 ≤ v := by
    intro N
    induction N with
    | zero =>
      intro j hj _
      have hj0 : j = 0 := Nat.le_zero.mp hj
      subst hj0
      exact ⟨1, get_depths_root nodes adj hch huniq, le_refl 1⟩
    | succ N ih =>
      intro j hj hjn
      by_cases hj0 : j = 0
      · subst hj0
        exact ⟨1, get_depths_root nodes adj hch huniq, le_refl 1⟩
      · obtain ⟨i, hi⟩ := hparent j (Nat.pos_of_ne_zero hj0) hjn
        have hic := hchild i j hi
        have hiN : i ≤ N := by omega
        have hin : i < nodes.length := by omega
        obtain ⟨v, hv', hv1⟩ := ih i hiN hin
        refine ⟨v + 1, ?_, by omega⟩
        rw [get_depths_child nodes adj hch huniq i hin j hi, hv']
        rfl
  intro j hjn
  exact key j j le_rfl hjn

theorem mem_getD_lt {l : List (List Nat)} {i c : Nat} (h : c ∈ l.getD i []) : i < l.length := by
  by_contra h'
  rw [List.getD_eq_default l [] (Nat.le_of_not_lt h')] at h
  exact absurd h (List.not_mem_nil c)

theorem getD_mem {l : List Nat} {j : Nat} (hj : j < l.length) (d : Nat) : l.getD j d ∈ l := by
  rw [List.getD_eq_getElem l d hj]
  exact List.getElem_mem hj

/-- On a duplicate-free list, `indexOf` inverts positional access. -/
theorem nodup_getD_indexOf {l : List Nat} (hl : l.Nodup) {j : Nat} (hj : j < l.length) :
    l.indexOf (l.getD j 0) = j := by
  have hmem : l.getD j 0 ∈ l := getD_mem hj 0
  have h1 : l.indexOf (l.getD j 0) < l.length := List.indexOf_lt_length.mpr hmem
  have h2 : l.get ⟨l.indexOf (l.getD j 0), h1⟩ = l.getD j 0 := List.indexOf_get h1
  have h3 : l.getD j 0 = l.get ⟨j, hj⟩ := List.getD_eq_getElem l 0 hj
  have h4 : l.get ⟨l.indexOf (l.getD j 0), h1⟩ = l.get ⟨j, hj⟩ := by rw [h2, h3]
  have h5 := (List.Nodup.get_inj_iff hl).mp h4
  exact congrArg Fin.val h5

/-- Positional access inverts `indexOf` on any list containing the element. -/
theorem getD_indexOf_self {l : List Nat} {c : Nat} (hc : c ∈ l) :
    l.getD (l.indexOf c) 0 = c := by
  have h1 : l.indexOf c < l.length := List.indexOf_lt_length.mpr hc
  rw [List.getD_eq_getElem l 0 h1]
  exact List.indexOf_get h1

/-- On a strictly sorted list, comparison of entries is comparison of
positions. -/
theorem sorted_getD_lt {l : List Nat} (hp : l.Pairwise (· < ·)) {i j : Nat}
    (hi : i < l.length) (hj : j < l.length) :
    l.getD i 0 < l.getD j 0 ↔ i < j := by
  have hget := List.pairwise_iff_get.mp hp
  constructor
  · intro h
    by_contra hij
    have hij' : j ≤ i := Nat.le_of_not_lt hij
    rcases Nat.eq_or_lt_of_le hij' with he | hlt
    · subst he
      exact absurd h (lt_irrefl _)
    · have hgt := hget ⟨j, hj⟩ ⟨i, hi⟩ hlt
      have hgt2 : l[j] < l[i] := hgt
      rw [List.getD_eq_getElem l 0 hi, List.getD_eq_getElem l 0 hj] at h
      omega
  · intro h
    have hgt := hget ⟨i, hi⟩ ⟨j, hj⟩ h
    have hgt2 : l[i] < l[j] := hgt
    rw [List.getD_eq_getElem l 0 hi, List.getD_eq_getElem l 0 hj]
    exact hgt2

theorem nodup_getD_inj {l : List Nat} (hl : l.Nodup) {i j : Nat}
    (hi : i < l.length) (hj : j < l.length) (h : l.getD i 0 = l.getD j 0) : i = j := by
  have h1 := nodup_getD_indexOf hl hi
  have h2 := nodup_getD_indexOf hl hj
  rw [← h1, ← h2, h]

theorem map_getD_range {α : Type} (l : List α) (d : α) :
    (List.range l.length).map (fun i => l.getD i d) = l := by
  apply List.ext_getElem
  · simp
  · intro i h1 h2
    simp only [List.getElem_map, List.getElem_range]
    exact List.getD_eq_getElem l d h2

theorem indexOf_range {n j : Nat} (hj : j < n) : (List.range n).indexOf j = j := by
  have hnd : (List.range n).Nodup := List.nodup_range n
  have hj' : j < (List.range n).length := by simpa using hj
  have h := nodup_getD_indexOf hnd hj'
  rw [List.getD_eq_getElem _ 0 hj', List.getElem_range] at h
  exact h

/-- The selection of `TextTree.at` is strictly increasing. -/
theorem selIdx_pairwise (nodes : List String) (adj : List (List Nat)) (k : Int) :
    (selIdx nodes adj k).Pairwise (· < ·) :=
  List.Pairwise.sublist (List.filter_sublist _) (List.pairwise_lt_range _)

/-- The selection of `TextTree.at` has no duplicates, so the dictionary
`new_node_mapping` of the source and `List.indexOf` agree on it. -/
theorem selIdx_nodup (nodes : List String) (adj : List (List Nat)) (k : Int) :
    (selIdx nodes adj k).Nodup :=
  (selIdx_pairwise nodes adj k).imp (fun h => Nat.ne_of_lt h)

theorem mem_selIdx (nodes : List String) (adj : List (List Nat)) (k : Int) (i : Nat) :
    i ∈ selIdx nodes adj k
      ↔ i < nodes.length ∧ ((get_depths nodes adj i).getD 0 : Int) ≤ k := by
  simp [selIdx, List.mem_filter, List.mem_range]

theorem selIdx_mem_lt (nodes : List String) (adj : List (List Nat)) (k : Int) {i : Nat}
    (h : i ∈ selIdx nodes adj k) : i < nodes.length :=
  ((mem_selIdx nodes adj k i).mp h).1

theorem zero_mem_selIdx (nodes : List String) (adj : List (List Nat))
    (hchild : ∀ i c, c ∈ adj.getD i [] → i < c)
    (huniq : ∀ c i j, c ∈ adj.getD i [] → c ∈ adj.getD j [] → i = j)
    (hpos : 0 < nodes.length) (k : Int) (hk : 1 ≤ k) : 0 ∈ selIdx nodes adj k := by
  rw [mem_selIdx]
  refine ⟨hpos, ?_⟩
  rw [get_depths_root nodes adj hchild huniq]
  exact hk

/-- The selection starts with the root index 0. -/
theorem selIdx_getD_zero (nodes : List String) (adj : List (List Nat))
    (hchild : ∀ i c, c ∈ adj.getD i [] → i < c)
    (huniq : ∀ c i j, c ∈ adj.getD i [] → c ∈ adj.getD j [] → i = j)
    (hpos : 0 < nodes.length) (k : Int) (hk : 1 ≤ k) :
    (selIdx nodes adj k).getD 0 0 = 0 := by
  have h0 : 0 ∈ selIdx nodes adj k := zero_mem_selIdx nodes adj hchild huniq hpos k hk
  have hlen : 0 < (selIdx nodes adj k).length :=
    List.length_pos.mpr (List.ne_nil_of_mem h0)
  have hp : (selIdx nodes adj k).getD ((selIdx nodes adj k).indexOf 0) 0 = 0 :=
    getD_indexOf_self h0
  have hpl : (selIdx nodes adj k).indexOf 0 < (selIdx nodes adj k).length :=
    List.indexOf_lt_length.mpr h0
  by_contra hne
  have hio : (selIdx nodes adj k).indexOf 0 ≠ 0 := by
    intro he
    rw [he] at hp
    exact hne hp
  have hlt : (selIdx nodes adj k).getD 0 0 < (selIdx nodes adj k).getD ((selIdx nodes adj k).indexOf 0) 0 :=
    (sorted_getD_lt (selIdx_pairwise nodes adj k) hlen hpl).mpr (Nat.pos_of_ne_zero hio)
  rw [hp] at hlt
  omega

theorem atNodes_length (nodes : List String) (adj : List (List Nat)) (k : Int) :
    (atNodes nodes adj k).length = (selIdx nodes adj k).length := by
  simp [atNodes]

theorem atAdj_length (nodes : List String) (adj : List (List Nat)) (k : Int) :
    (atAdj nodes adj k).length = (selIdx nodes adj k).length := by
  simp [atAdj]

/-- Row `j` of the truncated adjacency: the old row of the `j`-th selected node
if that node sits strictly above the cut, emptied otherwise, renumbered through
the selection. -/
theorem atAdj_getD (nodes : List String) (adj : List (List Nat)) (k : Int) {j : Nat}
    (hj : j < (selIdx nodes adj k).length) :
    (atAdj nodes adj k).getD j []
      = (if ((get_depths nodes adj ((selIdx nodes adj k).getD j 0)).getD 0 : Int) < k
          then adj.getD ((selIdx nodes adj k).getD j 0) [] else []).map
          (fun node => (selIdx nodes adj k).indexOf node) := by
  have hj1 : j < (atAdj nodes adj k).length := by
    rw [atAdj_length]
    exact hj
  rw [List.getD_eq_getElem _ [] hj1]
  rw [List.getD_eq_getElem (selIdx nodes adj k) 0 hj]
  simp only [atAdj, List.getElem_map]

/-- Unpacking membership in a row of the truncated adjacency: the new index is
the selection position of an old child of the `j`-th selected node, that node
sits strictly above the cut, and the child is itself selected. -/
theorem atAdj_mem (nodes : List String) (adj : List (List Nat))
    (hv : validTree nodes adj) (k : Int) {j c' : Nat}
    (h : c' ∈ (atAdj nodes adj k).getD j []) :
    j < (selIdx nodes adj k).length
    ∧ ∃ c, c ∈ adj.getD ((selIdx nodes adj k).getD j 0) []
        ∧ ((get_depths nodes adj ((selIdx nodes adj k).getD j 0)).getD 0 : Int) < k
        ∧ c ∈ selIdx nodes adj k
        ∧ c' = (selIdx nodes adj k).indexOf c
        ∧ (selIdx nodes adj k).getD c' 0 = c := by
  obtain ⟨hlen, hpos, hchild, huniq, hparent⟩ := hv
  have hch : ∀ i c, c ∈ adj.getD i [] → i < c := fun i c hm => (hchild i c hm).1
  have hj0 : j < (atAdj nodes adj k).length := mem_getD_lt h
  have hj : j < (selIdx nodes adj k).length := by
    rw [atAdj_length] at hj0
    exact hj0
  rw [atAdj_getD nodes adj k hj] at h
  by_cases hlt : ((get_depths nodes adj ((selIdx nodes adj k).getD j 0)).getD 0 : Int) < k
  · rw [if_pos hlt] at h
    obtain ⟨c, hcmem, rfl⟩ := List.mem_map.mp h
    have hsjS : (selIdx nodes adj k).getD j 0 ∈ selIdx nodes adj k := getD_mem hj 0
    have hsjn : (selIdx nodes adj k).getD j 0 < nodes.length :=
      selIdx_mem_lt nodes adj k hsjS
    obtain ⟨vj, hvj, _⟩ :=
      get_depths_defined nodes adj ⟨hlen, hpos, hchild, huniq, hparent⟩ _ hsjn
    have hDc : get_depths nodes adj c
        = (get_depths nodes adj ((selIdx nodes adj k).getD j 0)).map (· + 1) :=
      get_depths_child nodes adj hch huniq _ hsjn c hcmem
    have hcn : c < nodes.length := (hchild _ c hcmem).2
    have hvjk : ((vj : Int)) < k := by
      rw [hvj] at hlt
      exact hlt
    have hcS : c ∈ selIdx nodes adj k := by
      rw [mem_selIdx]
      refine ⟨hcn, ?_⟩
      rw [hDc, hvj]
      show (((vj + 1 : Nat) : Int)) ≤ k
      push_cast
      omega
    exact ⟨hj, c, hcmem, hlt, hcS, rfl, getD_indexOf_self hcS⟩
  · rw [if_neg hlt] at h
    exact absurd h (List.not_mem_nil c')

/-- `TextTree.at` either rejects the depth or returns the selected labels with
the renumbered, cut-emptied adjacency. -/
theorem textTreeAt_eq (nodes : List String) (adj : List (List Nat)) (k : Int) :
    textTreeAt nodes adj k
      = if k < 1 then Except.error TreeError.invalidArgument
        else Except.ok (atNodes nodes adj k, atAdj nodes adj k) := rfl

/-- The truncation of a valid tree is a valid tree: the selection keeps the
root, every kept child still follows its (kept) parent, parents stay unique,
and every kept non-root node still has a parent row containing it. -/
theorem validTree_textTreeAt (nodes : List String) (adj : List (List Nat))
    (hv : validTree nodes adj) (k : Int) (hk : 1 ≤ k) :
    validTree (atNodes nodes adj k) (atAdj nodes adj k) := by
  obtain ⟨hlen, hpos, hchild, huniq, hparent⟩ := hv
  have hch : ∀ i c, c ∈ adj.getD i [] → i < c := fun i c hm => (hchild i c hm).1
  have hS := selIdx_pairwise nodes adj k
  have hSnd := selIdx_nodup nodes adj k
  have h0mem : 0 ∈ selIdx nodes adj k := zero_mem_selIdx nodes adj hch huniq hpos k hk
  have hSpos : 0 < (selIdx nodes adj k).length :=
    List.length_pos.mpr (List.ne_nil_of_mem h0mem)
  have hS0 : (selIdx nodes adj k).getD 0 0 = 0 :=
    selIdx_getD_zero nodes adj hch huniq hpos k hk
  refine ⟨?_, ?_, ?_, ?_, ?_⟩
  · rw [atAdj_length, atNodes_length]
  · rw [atNodes_length]
    exact hSpos
  · intro j c' hmem
    obtain ⟨hj, c, hcmem, _, hcS, he, hg⟩ :=
      atAdj_mem nodes adj ⟨hlen, hpos, hchild, huniq, hparent⟩ k hmem
    have hc'len : c' < (selIdx nodes adj k).length := by
      rw [he]
      exact List.indexOf_lt_length.mpr hcS
    constructor
    · refine (sorted_getD_lt hS hj hc'len).mp ?_
      rw [hg]
      exact hch _ c hcmem
    · rw [atNodes_length]
      exact hc'len
  · intro c' j1 j2 h1 h2
    obtain ⟨hj1, c1, hc1mem, _, _, _, hg1⟩ :=
      atAdj_mem nodes adj ⟨hlen, hpos, hchild, huniq, hparent⟩ k h1
    obtain ⟨hj2, c2, hc2mem, _, _, _, hg2⟩ :=
      atAdj_mem nodes adj ⟨hlen, hpos, hchild, huniq, hparent⟩ k h2
    have hc12 : c1 = c2 := by
      rw [← hg1, ← hg2]
    rw [← hc12] at hc2mem
    have hj12 : (selIdx nodes adj k).getD j1 0 = (selIdx nodes adj k).getD j2 0 :=
      huniq c1 _ _ hc1mem hc2mem
    exact nodup_getD_inj hSnd hj1 hj2 hj12
  · intro j' hj'0 hj'n
    rw [atNodes_length] at hj'n
    have hcmemS : (selIdx nodes adj k).getD j' 0 ∈ selIdx nodes adj k := getD_mem hj'n 0
    have hcn : (selIdx nodes adj k).getD j' 0 < nodes.length :=
      selIdx_mem_lt nodes adj k hcmemS
    have hcpos : 0 < (selIdx nodes adj k).getD j' 0 := by
      have hlt := (sorted_getD_lt hS hSpos hj'n).mpr hj'0
      rw [hS0] at hlt
      exact hlt
    obtain ⟨i, hi⟩ := hparent ((selIdx nodes adj k).getD j' 0) hcpos hcn
    have hii := hchild i _ hi
    have hin : i < nodes.length := by omega
    have hDc := get_depths_child nodes adj hch huniq i hin _ hi
    obtain ⟨vi, hvi, _⟩ :=
      get_depths_defined nodes adj ⟨hlen, hpos, hchild, huniq, hparent⟩ i hin
    have hck : ((get_depths nodes adj ((selIdx nodes adj k).getD j' 0)).getD 0 : Int) ≤ k :=
      ((mem_selIdx nodes adj k _).mp hcmemS).2
    have hDc' : get_depths nodes adj ((selIdx nodes adj k).getD j' 0) = some (vi + 1) := by
      rw [hDc, hvi]
      rfl
    have hvik : ((vi : Int)) < k := by
      rw [hDc'] at hck
      have hck' : (((vi + 1 : Nat)) : Int) ≤ k := hck
      push_cast at hck'
      omega
    have hiS : i ∈ selIdx nodes adj k := by
      rw [mem_selIdx]
      refine ⟨hin, ?_⟩
      rw [hvi]
      exact le_of_lt hvik
    refine ⟨(selIdx nodes adj k).indexOf i, ?_⟩
    have hj''len : (selIdx nodes adj k).indexOf i < (selIdx nodes adj k).length :=
      List.indexOf_lt_length.mpr hiS
    rw [atAdj_getD nodes adj k hj''len, getD_indexOf_self hiS]
    have hcond : ((get_depths nodes adj i).getD 0 : Int) < k := by
      rw [hvi]
      exact hvik
    rw [if_pos hcond]
    refine List.mem_map.mpr ⟨(selIdx nodes adj k).getD j' 0, hi, ?_⟩
    exact nodup_getD_indexOf hSnd hj'n

/-- The derived depth of the `j`-th node of the truncated tree is the derived
depth of the `j`-th selected node of the original tree. -/
theorem get_depths_textTreeAt (nodes : List String) (adj : List (List Nat))
    (hv : validTree nodes adj) (k : Int) (hk : 1 ≤ k) :
    ∀ j, j < (selIdx nodes adj k).length →
      get_depths (atNodes nodes adj k) (atAdj nodes adj k) j
        = get_depths nodes adj ((selIdx nodes adj k).getD j 0) := by
  have hv' := validTree_textTreeAt nodes adj hv k hk
  obtain ⟨hlen, hpos, hchild, huniq, hparent⟩ := hv
  obtain ⟨hlen', hpos', hchild', huniq', hparent'⟩ := hv'
  have hch : ∀ i c, c ∈ adj.getD i [] → i < c := fun i c hm => (hchild i c hm).1
  have hch' : ∀ i c, c ∈ (atAdj nodes adj k).getD i [] → i < c :=
    fun i c hm => (hchild' i c hm).1
  have hS0 := selIdx_getD_zero nodes adj hch huniq hpos k hk
  have key : ∀ N j, j ≤ N → j < (selIdx nodes adj k).length →
      get_depths (atNodes nodes adj k) (atAdj nodes adj k) j
        = get_depths nodes adj ((selIdx nodes adj k).getD j 0) := by
    intro N
    induction N with
    | zero =>
      intro j hj _
      have hj0 : j = 0 := Nat.le_zero.mp hj
      subst hj0
      rw [hS0, get_depths_root (atNodes nodes adj k) (atAdj nodes adj k) hch' huniq',
        get_depths_root nodes adj hch huniq]
    | succ N ih =>
      intro j hj hjn
      by_cases hj0 : j = 0
      · subst hj0
        rw [hS0, get_depths_root (atNodes nodes adj k) (atAdj nodes adj k) hch' huniq',
          get_depths_root nodes adj hch huniq]
      · have hjn' : j < (atNodes nodes adj k).length := by
          rw [atNodes_length]
          exact hjn
        obtain ⟨i', hi'⟩ := hparent' j (Nat.pos_of_ne_zero hj0) hjn'
        have hii' := hchild' i' j hi'
        have hi'n : i' < (atAdj nodes adj k).length := mem_getD_lt hi'
        have hi'S : i' < (selIdx nodes adj k).length := by
          rw [atAdj_length] at hi'n
          exact hi'n
        have hi'n2 : i' < (atNodes nodes adj k).length := by
          rw [atNodes_length]
          exact hi'S
        have hD'j := get_depths_child (atNodes nodes adj k) (atAdj nodes adj k)
          hch' huniq' i' hi'n2 j hi'
        have ihiv := ih i' (by omega) hi'S
        obtain ⟨_, c, hcmem, _, _, _, hg⟩ :=
          atAdj_mem nodes adj ⟨hlen, hpos, hchild, huniq, hparent⟩ k hi'
        have hsi'n : (selIdx nodes adj k).getD i' 0 < nodes.length :=
          selIdx_mem_lt nodes adj k (getD_mem hi'S 0)
        have hDold := get_depths_child nodes adj hch huniq _ hsi'n c hcmem
        rw [hD'j, ihiv, hg, hDold]
  intro j hjn
  exact key j j le_rfl hjn

/-!  ## Claims about the tree layer -/

/-- Claim C5: truncation is idempotent.  On the repository's truncation
`TextTree.at` (embedded as `textTreeAt` over the node-list + adjacency
representation), for every valid tree and every depth `k ≥ 1`: if truncating
yields the tree `(tn, ta)`, truncating `(tn, ta)` to the same depth returns it
unchanged — the same node-label sequence and the same adjacency. -/
theorem C5_truncation_idempotent (nodes : List String) (adj : List (List Nat))
    (hv : validTree nodes adj) (k : Int) (hk : 1 ≤ k)
    (tn : List String) (ta : List (List Nat))
    (h : textTreeAt nodes adj k = Except.ok (tn, ta)) :
    textTreeAt tn ta k = Except.ok (tn, ta) := by
  have hnlt : ¬ k < 1 := by omega
  rw [textTreeAt_eq, if_neg hnlt] at h
  injection h with hpair
  injection hpair with htn hta
  subst htn
  subst hta
  have hv' := validTree_textTreeAt nodes adj hv k hk
  have hcorr := get_depths_textTreeAt nodes adj hv k hk
  have hn' : (atNodes nodes adj k).length = (selIdx nodes adj k).length :=
    atNodes_length nodes adj k
  have hsel' : selIdx (atNodes nodes adj k) (atAdj nodes adj k) k
      = List.range (atNodes nodes adj k).length := by
    show (List.range (atNodes nodes adj k).length).filter _
        = List.range (atNodes nodes adj k).length
    apply List.filter_eq_self.mpr
    intro j hjmem
    have hjn : j < (atNodes nodes adj k).length := List.mem_range.mp hjmem
    rw [hn'] at hjn
    simp only [decide_eq_true_eq]
    rw [hcorr j hjn]
    exact ((mem_selIdx nodes adj k _).mp (getD_mem hjn 0)).2
  rw [textTreeAt_eq, if_neg hnlt]
  have h1 : atNodes (atNodes nodes adj k) (atAdj nodes adj k) k = atNodes nodes adj k := by
    show (selIdx (atNodes nodes adj k) (atAdj nodes adj k) k).map
        (fun i => (atNodes nodes adj k).getD i "") = atNodes nodes adj k
    rw [hsel']
    exact map_getD_range (atNodes nodes adj k) ""
  have h2 : atAdj (atNodes nodes adj k) (atAdj nodes adj k) k = atAdj nodes adj k := by
    show List.map (fun row => row.map
        (fun node => (selIdx (atNodes nodes adj k) (atAdj nodes adj k) k).indexOf node))
        ((selIdx (atNodes nodes adj k) (atAdj nodes adj k) k).map
          (fun i =>
            if ((get_depths (atNodes nodes adj k) (atAdj nodes adj k) i).getD 0 : Int) < k
            then (atAdj nodes adj k).getD i [] else []))
      = atAdj nodes adj k
    rw [hsel']
    have hinner : (List.range (atNodes nodes adj k).length).map
        (fun i => if ((get_depths (atNodes nodes adj k) (atAdj nodes adj k) i).getD 0 : Int) < k
          then (atAdj nodes adj k).getD i [] else [])
      = (List.range (atNodes nodes adj k).length).map
          (fun i => (atAdj nodes adj k).getD i []) := by
      apply List.map_congr_left
      intro j hjmem
      have hjn : j < (atNodes nodes adj k).length := List.mem_range.mp hjmem
      have hjS : j < (selIdx nodes adj k).length := by
        rw [← hn']
        exact hjn
      by_cases hcut : ((get_depths (atNodes nodes adj k) (atAdj nodes adj k) j).getD 0 : Int) < k
      · rw [if_pos hcut]
      · rw [if_neg hcut]
        have hnocut : ¬ ((get_depths nodes adj ((selIdx nodes adj k).getD j 0)).getD 0 : Int) < k := by
          rw [← hcorr j hjS]
          exact hcut
        rw [atAdj_getD nodes adj k hjS, if_neg hnocut]
        rfl
    rw [hinner]
    have hlenB : (atAdj nodes adj k).length = (atNodes nodes adj k).length := by
      rw [atAdj_length, atNodes_length]
    have hB : (List.range (atNodes nodes adj k).length).map
        (fun i => (atAdj nodes adj k).getD i []) = atAdj nodes adj k := by
      rw [← hlenB]
      exact map_getD_range (atAdj nodes adj k) []
    rw [hB]
    obtain ⟨_, _, hchild', _, _⟩ := hv'
    have hrows : ∀ row ∈ atAdj nodes adj k,
        row.map (fun node => (List.range (atNodes nodes adj k).length).indexOf node) = row := by
      intro row hrow
      obtain ⟨⟨i, hi⟩, hget⟩ := List.mem_iff_get.mp hrow
      have hrowD : (atAdj nodes adj k).getD i [] = row := by
        rw [List.getD_eq_getElem _ [] hi]
        exact hget
      have hmap : ∀ c' ∈ row, (List.range (atNodes nodes adj k).length).indexOf c' = c' := by
        intro c' hc'
        have hcc := hchild' i c' (by rw [hrowD]; exact hc')
        exact indexOf_range hcc.2
      calc row.map (fun node => (List.range (atNodes nodes adj k).length).indexOf node)
          = row.map id := List.map_congr_left (fun c' hc' => hmap c' hc')
        _ = row := List.map_id row
    calc List.map
          (fun row => row.map (fun node => (List.range (atNodes nodes adj k).length).indexOf node))
          (atAdj nodes adj k)
        = (atAdj nodes adj k).map id := List.map_congr_left hrows
      _ = atAdj nodes adj k := List.map_id _
  rw [h1, h2]

/-- Witness for C5: a concrete two-node tree (a root with one child) truncated
to depth 1, and the result truncated again. -/
theorem C5_truncation_idempotent_witness :
    textTreeAt ["a"] [[]] 1 = Except.ok (["a"], [[]]) := by
  have hrow : ∀ i : Nat, ([[1], []] : List (List Nat)).getD i [] = if i = 0 then [1] else [] := by
    intro i
    match i with
    | 0 => rfl
    | 1 => rfl
    | n + 2 => rfl
  have hv : validTree ["a", "b"] [[1], []] := by
    refine ⟨rfl, by norm_num, ?_, ?_, ?_⟩
    · intro i c hc
      rw [hrow i] at hc
      by_cases hi : i = 0
      · rw [if_pos hi] at hc
        have hc1 : c = 1 := List.mem_singleton.mp hc
        subst hi
        subst hc1
        exact ⟨by omega, by norm_num⟩
      · rw [if_neg hi] at hc
        exact absurd hc (List.not_mem_nil c)
    · intro c i j hci hcj
      rw [hrow i] at hci
      rw [hrow j] at hcj
      by_cases hi : i = 0
      · by_cases hj : j = 0
        · rw [hi, hj]
        · rw [if_neg hj] at hcj
          exact absurd hcj (List.not_mem_nil c)
      · rw [if_neg hi] at hci
        exact absurd hci (List.not_mem_nil c)
    · intro j hj0 hjn
      have hj1 : j = 1 := by
        simp only [List.length_cons, List.length_nil] at hjn
        omega
      subst hj1
      refine ⟨0, ?_⟩
      rw [hrow 0, if_pos rfl]
      exact List.mem_singleton.mpr rfl
  exact C5_truncation_idempotent ["a", "b"] [[1], []] hv 1 (by norm_num) ["a"] [[]] rfl

/-- Claim C6 counterexample: on the source constructor `dict_to_node` (invoked
with its default depth 0 by `json_to_node`), the root of a constructed tree has
depth 0, not depth 1 as claimed. -/
theorem C6_root_depth_counterexample :
    dict_to_node (JTree.obj [JEntry.mk "a" (JTree.obj [])]) 0 = some (Node.mk "a" [] 0)
    ∧ Node.depth (Node.mk "a" [] 0) ≠ 1 :=
  ⟨rfl, by decide⟩

/-- Claim C6 (amended): in the `Node` representation of the live source the
root of a constructed tree has stored depth 0 (not 1) and every child's stored
depth is its parent's plus 1; this holds for trees built by `dict_to_node` (at
its default depth 0) and is preserved by contextualization.  On the checkpoint
node-list representation the derived depths of `TextTree.get_depths` do satisfy
the claim — root depth 1, child depth = parent depth + 1 — and the trees
produced by the truncation `TextTree.at` satisfy it again: the truncated tree's
derived root depth is 1 and each child's derived depth is its parent's plus
1. -/
theorem C6_depth_invariant :
    (∀ (j : JTree) (t : Node), dict_to_node j 0 = some t → depthsFrom 0 t)
    ∧ (∀ (t : Node) (d : Nat), depthsFrom d t → depthsFrom d (tree_with_context t))
    ∧ (∀ (nodes : List String) (adj : List (List Nat)) (k : Int)
         (tn : List String) (ta : List (List Nat)),
        validTree nodes adj → 1 ≤ k →
        textTreeAt nodes adj k = Except.ok (tn, ta) →
        get_depths tn ta 0 = some 1
        ∧ ∀ i c, c ∈ ta.getD i [] → get_depths tn ta c = (get_depths tn ta i).map (· + 1)) := by
  refine ⟨?_, ?_, ?_⟩
  · intro j t h
    cases j with
    | obj es =>
      cases es with
      | nil => simp [dict_to_node] at h
      | cons e rest =>
        have he : entry_to_node e 0 = t := by
          have hd : dict_to_node (JTree.obj (e :: rest)) 0 = some (entry_to_node e 0) := rfl
          rw [hd] at h
          exact Option.some.inj h
        rw [← he]
        exact entry_to_node_depths e 0
  · intro t d h
    exact add_context_depths t d "" h
  · intro nodes adj k tn ta hv hk h
    have hnlt : ¬ k < 1 := by omega
    rw [textTreeAt_eq, if_neg hnlt] at h
    injection h with hpair
    injection hpair with htn hta
    subst htn
    subst hta
    have hv' := validTree_textTreeAt nodes adj hv k hk
    obtain ⟨hlen', hpos', hchild', huniq', hparent'⟩ := hv'
    have hch' : ∀ i c, c ∈ (atAdj nodes adj k).getD i [] → i < c :=
      fun i c hm => (hchild' i c hm).1
    refine ⟨get_depths_root _ _ hch' huniq', ?_⟩
    intro i c hc
    have hi : i < (atAdj nodes adj k).length := mem_getD_lt hc
    rw [hlen'] at hi
    exact get_depths_child _ _ hch' huniq' i hi c hc

/-- Witness for C6 (amended): the stored-depth invariant at a tree built from a
concrete one-entry mapping and at its contextualization, and the derived-depth
invariant at a concrete truncated tree. -/
theorem C6_depth_invariant_witness :
    depthsFrom 0 (Node.mk "a" [] 0)
    ∧ depthsFrom 0 (tree_with_context (Node.mk "a" [] 0))
    ∧ (get_depths ["a"] [[]] 0 = some 1
        ∧ ∀ i c, c ∈ ([[]] : List (List Nat)).getD i [] →
            get_depths ["a"] [[]] c = (get_depths ["a"] [[]] i).map (· + 1)) := by
  have hrow : ∀ i : Nat, ([[]] : List (List Nat)).getD i [] = [] := by
    intro i
    match i with
    | 0 => rfl
    | n + 1 => rfl
  have hv : validTree ["a"] [[]] := by
    refine ⟨rfl, by norm_num, ?_, ?_, ?_⟩
    · intro i c hc
      rw [hrow i] at hc
      exact absurd hc (List.not_mem_nil c)
    · intro c i j hci _
      rw [hrow i] at hci
      exact absurd hci (List.not_mem_nil c)
    · intro j hj0 hjn
      simp only [List.length_singleton] at hjn
      omega
  exact ⟨C6_depth_invariant.1 (JTree.obj [JEntry.mk "a" (JTree.obj [])]) (Node.mk "a" [] 0) rfl,
    C6_depth_invariant.2.1 (Node.mk "a" [] 0) 0 (depthsFrom.node "a" [] 0 (by simp)),
    C6_depth_invariant.2.2 ["a"] [[]] 1 ["a"] [[]] hv (by norm_num) rfl⟩

/-- Claim C7 counterexample: a mapping with two top-level keys does not fail and
does return a tree — the one built from the first key. -/
theorem C7_multikey_counterexample :
    dict_to_node (JTree.obj [JEntry.mk "a" (JTree.obj []), JEntry.mk "b" (JTree.obj [])]) 0
      = some (Node.mk "a" [] 0) := rfl

/-- Claim C7 (amended): the source constructor `dict_to_node` raises no error at
all: an empty mapping yields no tree (Python `None`), and a mapping with several
top-level keys silently builds the tree of its first entry, ignoring the rest. -/
theorem C7_construction_never_fails :
    (∀ d : Nat, dict_to_node (JTree.obj []) d = none)
    ∧ (∀ (e : JEntry) (rest : List JEntry) (d : Nat),
        dict_to_node (JTree.obj (e :: rest)) d = dict_to_node (JTree.obj [e]) d) :=
  ⟨fun _ => rfl, fun _ _ _ => rfl⟩

/-- Claim C8: for every tree and every depth argument `d < 1`, the truncation
`TextTree.at` (embedded as `textTreeAt`) fails with the spec's
`InvalidArgumentError` (a `TypeError` in the source): the depth guard is the
first statement of the method, so it fires before any selection or renumbering
is computed — and the truncation layer consults no encoder at all.  For
`d ≥ 1` it raises no error and returns a tree. -/
theorem C8_truncate_argument_check :
    (∀ (nodes : List String) (adj : List (List Nat)) (d : Int), d < 1 →
        textTreeAt nodes adj d = Except.error TreeError.invalidArgument)
    ∧ (∀ (nodes : List String) (adj : List (List Nat)) (d : Int), 1 ≤ d →
        ∃ r, textTreeAt nodes adj d = Except.ok r) := by
  constructor
  · intro nodes adj d hd
    rw [textTreeAt_eq, if_pos hd]
  · intro nodes adj d hd
    rw [textTreeAt_eq, if_neg (by omega)]
    exact ⟨_, rfl⟩

/-- Witness for C8: a concrete one-node tree with the depth arguments 0 and 1. -/
theorem C8_truncate_argument_check_witness :
    textTreeAt ["a"] [[]] 0 = Except.error TreeError.invalidArgument
    ∧ ∃ r, textTreeAt ["a"] [[]] 1 = Except.ok r :=
  ⟨C8_truncate_argument_check.1 ["a"] [[]] 0 (by norm_num),
   C8_truncate_argument_check.2 ["a"] [[]] 1 (by norm_num)⟩

/-- Claim C9: `contextualize` (source `tree_with_context`) is total by
construction, preserves the label-erased skeleton (hence the adjacency and the
stored depths) and the size, and at every valid path the new label is the
concatenation of the ancestor labels along that path followed by the node's own
label. -/
theorem C9_contextualize_structure : ∀ T : Node,
    skelT (tree_with_context T) = skelT T
    ∧ szT (tree_with_context T) = szT T
    ∧ ∀ p : List Nat, (getAt (tree_with_context T) p).map Node.label = pathConcat T p := by
  intro T
  refine ⟨add_context_skel T "", add_context_szT T "", ?_⟩
  intro p
  show (getAt (add_context T "") p).map Node.label = pathConcat T p
  rw [add_context_pathConcat p T ""]
  cases pathConcat T p with
  | none => rfl
  | some s => simp [String.empty_append]

/-!  ## Cost sums -/

theorem costT_eq_sum (f : Node → ℚ) : ∀ t : Node, costT f t = ((nodesT t).map f).sum := by
  intro t
  induction t using node_recurse with
  | h l cs d ih =>
    show f (Node.mk l cs d) + costF f cs
        = ((Node.mk l cs d :: nodesF cs).map f).sum
    simp only [List.map_cons, List.sum_cons]
    congr 1
    induction cs with
    | nil => rfl
    | cons c cs ihl =>
      have hc := ih c (by simp)
      have hrest : costF f cs = ((nodesF cs).map f).sum := by
        apply ihl
        intro c' hc'
        exact ih c' (by simp [hc'])
      simp [costF, nodesF, hc, hrest]

theorem costF_eq_sum (f : Node → ℚ) : ∀ F : List Node, costF f F = ((nodesF F).map f).sum := by
  intro F
  induction F with
  | nil => rfl
  | cons t ts ih => simp [costF, nodesF, costT_eq_sum, ih]

theorem nodesT_length : ∀ t : Node, (nodesT t).length = szT t := by
  intro t
  induction t using node_recurse with
  | h l cs d ih =>
    show (Node.mk l cs d :: nodesF cs).length = 1 + szF cs
    simp only [List.length_cons]
    have : (nodesF cs).length = szF cs := by
      induction cs with
      | nil => rfl
      | cons c cs ihl =>
        have hc := ih c (by simp)
        have hrest : (nodesF cs).length = szF cs := by
          apply ihl
          intro c' hc'
          exact ih c' (by simp [hc'])
        simp [nodesF, szF, hc, hrest]
    omega

theorem nodesF_length (F : List Node) : (nodesF F).length = szF F := by
  induction F with
  | nil => rfl
  | cons t ts ih => simp [nodesF, szF, nodesT_length, ih]

theorem costF_append (f : Node → ℚ) (a b : List Node) :
    costF f (a ++ b) = costF f a + costF f b := by
  simp [costF_eq_sum, nodesF_append]

theorem costF_reverse (f : Node → ℚ) (F : List Node) :
    costF f F.reverse = costF f F := by
  induction F with
  | nil => rfl
  | cons t ts ih => simp [List.reverse_cons, costF_append, costF, costT_eq_sum, ih]; ring

theorem costF_nonneg (f : Node → ℚ) (hf : ∀ n, 0 ≤ f n) (F : List Node) :
    0 ≤ costF f F := by
  rw [costF_eq_sum]
  apply List.sum_nonneg
  intro x hx
  obtain ⟨n, hn, rfl⟩ := List.mem_map.mp hx
  exact hf n

theorem costT_nonneg (f : Node → ℚ) (hf : ∀ n, 0 ≤ f n) (t : Node) :
    0 ≤ costT f t := by
  rw [costT_eq_sum]
  apply List.sum_nonneg
  intro x hx
  obtain ⟨n, hn, rfl⟩ := List.mem_map.mp hx
  exact hf n

theorem costF_le_max (f : Node → ℚ) (M : ℚ) (F : List Node)
    (hf : ∀ n ∈ nodesF F, f n ≤ M) : costF f F ≤ M * szF F := by
  rw [costF_eq_sum]
  calc ((nodesF F).map f).sum ≤ ((nodesF F).map f).length • M := by
        apply List.sum_le_card_nsmul
        intro x hx
        obtain ⟨n, hn, rfl⟩ := List.mem_map.mp hx
        exact hf n hn
    _ = M * szF F := by
        simp [nsmul_eq_mul, nodesF_length]
        ring

theorem costF_congr (f g : Node → ℚ) (F : List Node)
    (h : ∀ n ∈ nodesF F, f n = g n) : costF f F = costF g F := by
  rw [costF_eq_sum, costF_eq_sum]
  congr 1
  exact List.map_congr_left h

/-!  ## Ordered engine: equations and induction principle -/

theorem fdist_nil_left (del ins : Node → ℚ) (sub : Node → Node → ℚ) (F2 : List Node) :
    fdist del ins sub [] F2 = costF ins F2 := by
  unfold fdist
  rfl

theorem fdist_nil_right (del ins : Node → ℚ) (sub : Node → Node → ℚ) (F1 : List Node)
    (h : F1 ≠ []) : fdist del ins sub F1 [] = costF del F1 := by
  cases F1 with
  | nil => exact absurd rfl h
  | cons t F =>
    unfold fdist
    rfl

theorem fdist_cons (del ins : Node → ℚ) (sub : Node → Node → ℚ) (F1 F2 : List Node)
    (h1 : F1 ≠ []) (h2 : F2 ≠ []) :
    fdist del ins sub F1 F2 =
    min (min (del (F1.getLast h1) +
            fdist del ins sub (F1.dropLast ++ (F1.getLast h1).children) F2)
             (ins (F2.getLast h2) +
            fdist del ins sub F1 (F2.dropLast ++ (F2.getLast h2).children)))
        (sub (F1.getLast h1) (F2.getLast h2) +
           fdist del ins sub (F1.getLast h1).children (F2.getLast h2).children +
           fdist del ins sub F1.dropLast F2.dropLast) := by
  cases F1 with
  | nil => exact absurd rfl h1
  | cons x1 R1 =>
    cases F2 with
    | nil => exact absurd rfl h2
    | cons x2 R2 =>
      conv_lhs => unfold fdist

theorem szF_split (F : List Node) (h : F ≠ []) :
    szF F = szF F.dropLast + szT (F.getLast h) := by
  conv_lhs => rw [← List.dropLast_append_getLast h]
  rw [szF_append]
  simp [szF]

/-- Induction principle following the recursion structure of the ordered forest
distance. -/
theorem fdist_rec (P : List Node → List Node → Prop)
    (h0 : ∀ F2, P [] F2)
    (h1 : ∀ F1, F1 ≠ [] → P F1 [])
    (h2 : ∀ F1 F2 (n1 : F1 ≠ []) (n2 : F2 ≠ []),
      P (F1.dropLast ++ (F1.getLast n1).children) F2 →
      P F1 (F2.dropLast ++ (F2.getLast n2).children) →
      P (F1.getLast n1).children (F2.getLast n2).children →
      P F1.dropLast F2.dropLast →
      P F1 F2) :
    ∀ F1 F2, P F1 F2 := by
  have key : ∀ n F1 F2, szF F1 + szF F2 ≤ n → P F1 F2 := by
    intro n
    induction n with
    | zero =>
      intro F1 F2 hle
      cases F1 with
      | nil => exact h0 F2
      | cons x R =>
        exfalso
        have := szT_pos x
        simp [szF] at hle
        omega
    | succ n ih =>
      intro F1 F2 hle
      cases hF1 : F1 with
      | nil => exact h0 F2
      | cons x1 R1 =>
        cases hF2 : F2 with
        | nil => exact h1 _ (List.cons_ne_nil x1 R1)
        | cons x2 R2 =>
          subst hF1 hF2
          have n1 : (x1 :: R1) ≠ [] := List.cons_ne_nil x1 R1
          have n2 : (x2 :: R2) ≠ [] := List.cons_ne_nil x2 R2
          have e1 := szF_split _ n1
          have e2 := szF_split _ n2
          have g1 := szT_eq ((x1 :: R1).getLast n1)
          have g2 := szT_eq ((x2 :: R2).getLast n2)
          have p1 := szT_pos ((x1 :: R1).getLast n1)
          have p2 := szT_pos ((x2 :: R2).getLast n2)
          refine h2 _ _ n1 n2 ?_ ?_ ?_ ?_
          · exact ih _ _ (by rw [szF_append]; omega)
          · exact ih _ _ (by rw [szF_append]; omega)
          · exact ih _ _ (by omega)
          · exact ih _ _ (by omega)
  intro F1 F2
  exact key (szF F1 + szF F2) F1 F2 le_rfl

/-!  ## Ordered engine: nonnegativity, identity, global upper bound, congruence -/

theorem fdist_nonneg (del ins : Node → ℚ) (sub : Node → Node → ℚ)
    (hd : ∀ t, 0 ≤ del t) (hi : ∀ t, 0 ≤ ins t) (hs : ∀ a b, 0 ≤ sub a b) :
    ∀ F1 F2, 0 ≤ fdist del ins sub F1 F2 := by
  intro F1 F2
  induction F1, F2 using fdist_rec with
  | h0 F2 =>
    rw [fdist_nil_left]
    exact costF_nonneg ins hi F2
  | h1 F1 h =>
    rw [fdist_nil_right del ins sub F1 h]
    exact costF_nonneg del hd F1
  | h2 F1 F2 n1 n2 ih1 ih2 ih3 ih4 =>
    rw [fdist_cons del ins sub F1 F2 n1 n2]
    have := hd (F1.getLast n1)
    have := hi (F2.getLast n2)
    have := hs (F1.getLast n1) (F2.getLast n2)
    simp only [le_min_iff]
    refine ⟨⟨by linarith, by linarith⟩, by linarith⟩

theorem fdist_self_le (del ins : Node → ℚ) (sub : Node → Node → ℚ)
    (hrefl : ∀ t, sub t t = 0) : ∀ F, fdist del ins sub F F ≤ 0 := by
  have key : ∀ n F, szF F ≤ n → fdist del ins sub F F ≤ 0 := by
    intro n
    induction n with
    | zero =>
      intro F hle
      cases F with
      | nil => rw [fdist_nil_left]; simp [costF]
      | cons x R =>
        exfalso
        have := szT_pos x
        simp [szF] at hle
        omega
    | succ n ih =>
      intro F hle
      cases hF : F with
      | nil => rw [fdist_nil_left]; simp [costF]
      | cons x R =>
        subst hF
        have n1 : (x :: R) ≠ [] := List.cons_ne_nil x R
        rw [fdist_cons del ins sub _ _ n1 n1]
        have e1 := szF_split _ n1
        have g1 := szT_eq ((x :: R).getLast n1)
        have p1 := szT_pos ((x :: R).getLast n1)
        have hch : fdist del ins sub ((x :: R).getLast n1).children ((x :: R).getLast n1).children ≤ 0 :=
          ih _ (by omega)
        have hdl : fdist del ins sub (x :: R).dropLast (x :: R).dropLast ≤ 0 :=
          ih _ (by omega)
        have hr := hrefl ((x :: R).getLast n1)
        calc min _ _ ≤ sub ((x :: R).getLast n1) ((x :: R).getLast n1) +
              fdist del ins sub ((x :: R).getLast n1).children ((x :: R).getLast n1).children +
              fdist del ins sub (x :: R).dropLast (x :: R).dropLast := min_le_right _ _
          _ ≤ 0 := by rw [hr]; linarith
  intro F
  exact key (szF F) F le_rfl

/-- For a cost model with zero-cost substitution on identical nodes and
nonnegative costs, the ordered engine gives 0 on a forest against itself. -/
theorem fdist_self (del ins : Node → ℚ) (sub : Node → Node → ℚ)
    (hd : ∀ t, 0 ≤ del t) (hi : ∀ t, 0 ≤ ins t) (hs : ∀ a b, 0 ≤ sub a b)
    (hrefl : ∀ t, sub t t = 0) (F : List Node) : fdist del ins sub F F = 0 :=
  le_antisymm (fdist_self_le del ins sub hrefl F) (fdist_nonneg del ins sub hd hi hs F F)

theorem costF_split (f : Node → ℚ) (F : List Node) (h : F ≠ []) :
    costF f F = costF f F.dropLast + f (F.getLast h) + costF f (F.getLast h).children := by
  conv_lhs => rw [← List.dropLast_append_getLast h]
  rw [costF_append]
  have : costT f (F.getLast h) = f (F.getLast h) + costF f (F.getLast h).children := by
    cases hg : F.getLast h with
    | mk l cs d => simp [costT, Node.children]
  simp [costF, this]
  ring

/-- Deleting the whole first forest and inserting the whole second is always an
available edit script, so the ordered distance never exceeds its cost. -/
theorem fdist_le_delete_insert (del ins : Node → ℚ) (sub : Node → Node → ℚ) :
    ∀ F1 F2, fdist del ins sub F1 F2 ≤ costF del F1 + costF ins F2 := by
  intro F1 F2
  induction F1, F2 using fdist_rec with
  | h0 F2 =>
    rw [fdist_nil_left]
    simp [costF]
  | h1 F1 h =>
    rw [fdist_nil_right del ins sub F1 h]
    simp [costF_nonneg]
    have : costF ins ([] : List Node) = 0 := rfl
    simp [costF] at this ⊢
  | h2 F1 F2 n1 n2 ih1 ih2 ih3 ih4 =>
    rw [fdist_cons del ins sub F1 F2 n1 n2]
    have hsplit := costF_split del F1 n1
    have happ := costF_append del F1.dropLast (F1.getLast n1).children
    calc min _ _ ≤ del (F1.getLast n1) +
          fdist del ins sub (F1.dropLast ++ (F1.getLast n1).children) F2 :=
          le_trans (min_le_left _ _) (min_le_left _ _)
      _ ≤ del (F1.getLast n1) + (costF del (F1.dropLast ++ (F1.getLast n1).children) + costF ins F2) := by linarith
      _ = costF del F1 + costF ins F2 := by rw [happ, hsplit]; ring

theorem nodesF_split (F : List Node) (h : F ≠ []) :
    nodesF F = nodesF F.dropLast ++ (F.getLast h :: nodesF (F.getLast h).children) := by
  conv_lhs => rw [← List.dropLast_append_getLast h]
  rw [nodesF_append]
  congr 1
  show nodesF [F.getLast h] = _
  simp [nodesF, nodesT_eq]

/-- The engine consults its cost functions only at nodes of the two forests:
cost functions agreeing there give equal distances. -/
theorem fdist_congr (del del' ins ins' : Node → ℚ) (sub sub' : Node → Node → ℚ) :
    ∀ F1 F2,
    (∀ n ∈ nodesF F1, del n = del' n) →
    (∀ n ∈ nodesF F2, ins n = ins' n) →
    (∀ a ∈ nodesF F1, ∀ b ∈ nodesF F2, sub a b = sub' a b) →
    fdist del ins sub F1 F2 = fdist del' ins' sub' F1 F2 := by
  intro F1 F2
  induction F1, F2 using fdist_rec with
  | h0 F2 =>
    intro _ hins _
    rw [fdist_nil_left, fdist_nil_left]
    exact costF_congr _ _ F2 hins
  | h1 F1 h =>
    intro hdel _ _
    rw [fdist_nil_right _ _ _ _ h, fdist_nil_right _ _ _ _ h]
    exact costF_congr _ _ F1 hdel
  | h2 F1 F2 n1 n2 ih1 ih2 ih3 ih4 =>
    intro hdel hins hsub
    have hs1 := nodesF_split F1 n1
    have hs2 := nodesF_split F2 n2
    have mlast1 : F1.getLast n1 ∈ nodesF F1 := by rw [hs1]; simp
    have mlast2 : F2.getLast n2 ∈ nodesF F2 := by rw [hs2]; simp
    have mch1 : ∀ n ∈ nodesF (F1.getLast n1).children, n ∈ nodesF F1 := by
      intro n hn
      rw [hs1]
      simp [hn]
    have mch2 : ∀ n ∈ nodesF (F2.getLast n2).children, n ∈ nodesF F2 := by
      intro n hn
      rw [hs2]
      simp [hn]
    have mdrop1 : ∀ n ∈ nodesF F1.dropLast, n ∈ nodesF F1 := by
      intro n hn
      rw [hs1]
      simp [hn]
    have mdrop2 : ∀ n ∈ nodesF F2.dropLast, n ∈ nodesF F2 := by
      intro n hn
      rw [hs2]
      simp [hn]
    have m1 : ∀ n ∈ nodesF (F1.dropLast ++ (F1.getLast n1).children), n ∈ nodesF F1 := by
      intro n hn
      rw [nodesF_append] at hn
      rcases List.mem_append.mp hn with h | h
      · exact mdrop1 n h
      · exact mch1 n h
    have m2 : ∀ n ∈ nodesF (F2.dropLast ++ (F2.getLast n2).children), n ∈ nodesF F2 := by
      intro n hn
      rw [nodesF_append] at hn
      rcases List.mem_append.mp hn with h | h
      · exact mdrop2 n h
      · exact mch2 n h
    rw [fdist_cons del ins sub F1 F2 n1 n2, fdist_cons del' ins' sub' F1 F2 n1 n2]
    rw [hdel _ mlast1, hins _ mlast2, hsub _ mlast1 _ mlast2]
    rw [ih1 (fun n hn => hdel n (m1 n hn)) hins (fun a ha b hb => hsub a (m1 a ha) b hb)]
    rw [ih2 hdel (fun n hn => hins n (m2 n hn)) (fun a ha b hb => hsub a ha b (m2 b hb))]
    rw [ih3 (fun n hn => hdel n (mch1 n hn)) (fun n hn => hins n (mch2 n hn))
      (fun a ha b hb => hsub a (mch1 a ha) b (mch2 b hb))]
    rw [ih4 (fun n hn => hdel n (mdrop1 n hn)) (fun n hn => hins n (mdrop2 n hn))
      (fun a ha b hb => hsub a (mdrop1 a ha) b (mdrop2 b hb))]

/-!  ## Unordered engine: equations and induction principle -/

theorem udist_def (del ins : Node → ℚ) (sub : Node → Node → ℚ) (t1 t2 : Node) :
    udist del ins sub t1 t2 = sub t1 t2 + umatch del ins sub t1.children t2.children := by
  unfold udist
  rfl

theorem umatch_nil (del ins : Node → ℚ) (sub : Node → Node → ℚ) (F2 : List Node) :
    umatch del ins sub [] F2 = costF ins F2 := by
  unfold umatch
  rfl

theorem umatch_cons (del ins : Node → ℚ) (sub : Node → Node → ℚ) (t : Node)
    (F1 F2 : List Node) :
    umatch del ins sub (t :: F1) F2 = pick del ins sub t F1 [] F2 := by
  unfold umatch
  rfl

theorem pick_nil (del ins : Node → ℚ) (sub : Node → Node → ℚ) (t : Node)
    (F1 pre : List Node) :
    pick del ins sub t F1 pre [] = costT del t + umatch del ins sub F1 pre.reverse := by
  unfold pick
  rfl

theorem pick_cons (del ins : Node → ℚ) (sub : Node → Node → ℚ) (t : Node)
    (F1 pre : List Node) (g : Node) (post : List Node) :
    pick del ins sub t F1 pre (g :: post) =
    min (udist del ins sub t g + umatch del ins sub F1 (pre.reverse ++ post))
        (pick del ins sub t F1 (g :: pre) post) := by
  conv_lhs => unfold pick

/-- Joint induction principle following the recursion structure of the unordered
engine. -/
theorem unordered_rec (Pu : Node → Node → Prop) (Pm : List Node → List Node → Prop)
    (Pp : Node → List Node → List Node → List Node → Prop)
    (hu : ∀ t1 t2, Pm t1.children t2.children → Pu t1 t2)
    (hm0 : ∀ F2, Pm [] F2)
    (hm1 : ∀ t F1 F2, Pp t F1 [] F2 → Pm (t :: F1) F2)
    (hp0 : ∀ t F1 pre, Pm F1 pre.reverse → Pp t F1 pre [])
    (hp1 : ∀ t F1 pre g post, Pu t g → Pm F1 (pre.reverse ++ post) →
      Pp t F1 (g :: pre) post → Pp t F1 pre (g :: post)) :
    (∀ t1 t2, Pu t1 t2) ∧ (∀ F1 F2, Pm F1 F2) ∧ (∀ t F1 pre rem, Pp t F1 pre rem) := by
  have key : ∀ n,
      (∀ t1 t2, szT t1 + szT t2 ≤ n → Pu t1 t2)
      ∧ (∀ t F1 pre rem, szT t + szF F1 + szF pre + szF rem ≤ n → Pp t F1 pre rem)
      ∧ (∀ F1 F2, szF F1 + szF F2 ≤ n → Pm F1 F2) := by
    intro n
    induction n with
    | zero =>
      refine ⟨?_, ?_, ?_⟩
      · intro t1 t2 hle
        exfalso
        have := szT_pos t1
        have := szT_pos t2
        omega
      · intro t F1 pre rem hle
        exfalso
        have := szT_pos t
        omega
      · intro F1 F2 hle
        cases F1 with
        | nil => exact hm0 F2
        | cons t F =>
          exfalso
          have := szT_pos t
          simp [szF] at hle
          omega
    | succ n ih =>
      obtain ⟨ihu, ihp, ihm⟩ := ih
      have hu' : ∀ t1 t2, szT t1 + szT t2 ≤ n + 1 → Pu t1 t2 := by
        intro t1 t2 hle
        apply hu
        apply ihm
        have e1 := szT_eq t1
        have e2 := szT_eq t2
        omega
      have hp' : ∀ t F1 pre rem, szT t + szF F1 + szF pre + szF rem ≤ n + 1 →
          Pp t F1 pre rem := by
        intro t F1 pre rem
        induction rem generalizing pre with
        | nil =>
          intro hle
          apply hp0
          apply ihm
          rw [szF_reverse]
          have := szT_pos t
          have hz : szF ([] : List Node) = 0 := rfl
          omega
        | cons g post ihr =>
          intro hle
          have hgp : szF (g :: post) = szT g + szF post := rfl
          apply hp1
          · apply hu'
            omega
          · apply ihm
            rw [szF_append, szF_reverse]
            have := szT_pos t
            have := szT_pos g
            omega
          · apply ihr
            have hgq : szF (g :: pre) = szT g + szF pre := rfl
            omega
      have hm' : ∀ F1 F2, szF F1 + szF F2 ≤ n + 1 → Pm F1 F2 := by
        intro F1 F2 hle
        cases F1 with
        | nil => exact hm0 F2
        | cons t F =>
          apply hm1
          apply hp'
          have h1 : szF (t :: F) = szT t + szF F := rfl
          have hz : szF ([] : List Node) = 0 := rfl
          omega
      exact ⟨hu', hp', hm'⟩
  refine ⟨fun t1 t2 => (key (szT t1 + szT t2)).1 t1 t2 le_rfl,
    fun F1 F2 => (key (szF F1 + szF F2)).2.2 F1 F2 le_rfl,
    fun t F1 pre rem => (key (szT t + szF F1 + szF pre + szF rem)).2.1 t F1 pre rem le_rfl⟩

/-!  ## Unordered engine: nonnegativity, identity, global upper bound -/

theorem unordered_nonneg (del ins : Node → ℚ) (sub : Node → Node → ℚ)
    (hd : ∀ t, 0 ≤ del t) (hi : ∀ t, 0 ≤ ins t) (hs : ∀ a b, 0 ≤ sub a b) :
    (∀ t1 t2, 0 ≤ udist del ins sub t1 t2)
    ∧ (∀ F1 F2, 0 ≤ umatch del ins sub F1 F2)
    ∧ (∀ t F1 pre rem, 0 ≤ pick del ins sub t F1 pre rem) := by
  apply unordered_rec
  · intro t1 t2 hm
    rw [udist_def]
    have := hs t1 t2
    linarith
  · intro F2
    rw [umatch_nil]
    exact costF_nonneg ins hi F2
  · intro t F1 F2 hp
    rw [umatch_cons]
    exact hp
  · intro t F1 pre hm
    rw [pick_nil]
    have := costT_nonneg del hd t
    linarith
  · intro t F1 pre g post hug hmm hpp
    rw [pick_cons]
    exact le_min (by linarith) hpp

/-- A tree is never a worse match for the assignment than deleting and
reinserting everything: the unordered matching of two forests is at most the
cost of deleting the whole first forest plus inserting the whole second. -/
theorem unordered_le_delete_insert (del ins : Node → ℚ) (sub : Node → Node → ℚ) :
    (∀ F1 F2, umatch del ins sub F1 F2 ≤ costF del F1 + costF ins F2) := by
  have big := unordered_rec (fun _ _ => True)
    (fun F1 F2 => umatch del ins sub F1 F2 ≤ costF del F1 + costF ins F2)
    (fun t F1 pre rem => pick del ins sub t F1 pre rem
      ≤ costT del t + costF del F1 + costF ins pre + costF ins rem)
    (fun _ _ _ => trivial)
    (fun F2 => by
      dsimp only
      rw [umatch_nil]
      have hz : costF del ([] : List Node) = 0 := rfl
      simp [hz])
    (fun t F1 F2 hp => by
      dsimp only at hp ⊢
      rw [umatch_cons]
      have h1 : costF del (t :: F1) = costT del t + costF del F1 := rfl
      have hz : costF ins ([] : List Node) = 0 := rfl
      rw [h1]
      linarith)
    (fun t F1 pre hm => by
      dsimp only at hm ⊢
      rw [pick_nil]
      rw [costF_reverse] at hm
      have hz : costF ins ([] : List Node) = 0 := rfl
      linarith)
    (fun t F1 pre g post _ hm hp => by
      dsimp only at hm hp ⊢
      rw [pick_cons]
      have h1 : costF ins (g :: pre) = costT ins g + costF ins pre := rfl
      have h2 : costF ins (g :: post) = costT ins g + costF ins post := rfl
      refine le_trans (min_le_right _ _) ?_
      rw [h1] at hp
      rw [h2]
      linarith)
  exact big.2.1

theorem unordered_self_le (del ins : Node → ℚ) (sub : Node → Node → ℚ)
    (hrefl : ∀ t, sub t t = 0) : ∀ F, umatch del ins sub F F ≤ 0 := by
  have key : ∀ n F, szF F ≤ n → umatch del ins sub F F ≤ 0 := by
    intro n
    induction n with
    | zero =>
      intro F hle
      cases F with
      | nil =>
        rw [umatch_nil]
        simp [costF]
      | cons x R =>
        exfalso
        have := szT_pos x
        simp [szF] at hle
        omega
    | succ n ih =>
      intro F hle
      cases F with
      | nil =>
        rw [umatch_nil]
        simp [costF]
      | cons t F =>
        rw [umatch_cons, pick_cons, udist_def]
        have hone : szF (t :: F) = szT t + szF F := rfl
        have hTe := szT_eq t
        have hp := szT_pos t
        have hch : umatch del ins sub t.children t.children ≤ 0 := ih _ (by omega)
        have hF : umatch del ins sub F F ≤ 0 := ih _ (by omega)
        have hsub := hrefl t
        refine le_trans (min_le_left _ _) ?_
        simp only [List.reverse_nil, List.nil_append]
        linarith
  intro F
  exact key (szF F) F le_rfl

/-- For a cost model with zero-cost substitution on identical nodes and
nonnegative costs, the unordered engine gives 0 on a forest against itself. -/
theorem unordered_self (del ins : Node → ℚ) (sub : Node → Node → ℚ)
    (hd : ∀ t, 0 ≤ del t) (hi : ∀ t, 0 ≤ ins t) (hs : ∀ a b, 0 ≤ sub a b)
    (hrefl : ∀ t, sub t t = 0) (F : List Node) : umatch del ins sub F F = 0 :=
  le_antisymm (unordered_self_le del ins sub hrefl F)
    ((unordered_nonneg del ins sub hd hi hs).2.1 F F)

/-!  ## Bounds for the normalising orchestrator -/

theorem foldl_max_init_le (l : List ℚ) : ∀ b : ℚ, b ≤ l.foldl max b := by
  induction l with
  | nil => intro b; simp
  | cons x l ih => intro b; exact le_trans (le_max_left b x) (ih (max b x))

theorem foldl_max_le_of_mem (l : List ℚ) : ∀ (b x : ℚ), x ∈ l → x ≤ l.foldl max b := by
  induction l with
  | nil =>
    intro b x h
    cases h
  | cons y l ih =>
    intro b x h
    rcases List.mem_cons.mp h with rfl | h
    · exact le_trans (le_max_right b x) (foldl_max_init_le l (max b x))
    · exact ih (max b y) x h

theorem maxUnary_nonneg {E : Type} (A B : Option Node) (encode : String → E)
    (edist : E → E → ℚ) : 0 ≤ maxUnary A B encode edist :=
  foldl_max_init_le _ 0

theorem label_mem_optLabels (X : Option Node) (n : Node) (h : n ∈ nodesF X.toList) :
    n.label ∈ optLabels X := by
  cases X with
  | none => simp [Option.toList, nodesF] at h
  | some t =>
    show n.label ∈ extract_sentences t
    rw [extract_sentences_eq_labels]
    apply List.mem_map_of_mem
    simpa [Option.toList, nodesF] using h

theorem optSize_toList (X : Option Node) : szF X.toList = optSize X := by
  cases X with
  | none => rfl
  | some t => simp [Option.toList, szF, optSize]

theorem rawDistance_nonneg {E : Type} (A B : Option Node) (encode : String → E)
    (edist : E → E → ℚ) (hnn : ∀ x y, 0 ≤ edist x y) (u : Bool) :
    0 ≤ rawDistance A B encode edist u := by
  cases u with
  | false =>
    simp only [rawDistance, Bool.false_eq_true, if_false]
    exact fdist_nonneg _ _ _ (fun t => hnn _ _) (fun t => hnn _ _) (fun a b => hnn _ _) _ _
  | true =>
    simp only [rawDistance, if_true]
    exact (unordered_nonneg _ _ _ (fun t => hnn _ _) (fun t => hnn _ _)
      (fun a b => hnn _ _)).2.1 _ _

theorem rawDistance_self {E : Type} (X : Option Node) (encode : String → E)
    (edist : E → E → ℚ) (hrefl : ∀ e, edist e e = 0) (hnn : ∀ x y, 0 ≤ edist x y)
    (u : Bool) : rawDistance X X encode edist u = 0 := by
  cases u with
  | false =>
    simp only [rawDistance, Bool.false_eq_true, if_false]
    exact fdist_self (fun n => edist (encode n.label) (encode ""))
      (fun n => edist (encode n.label) (encode ""))
      (fun a b => edist (encode a.label) (encode b.label))
      (fun t => hnn _ _) (fun t => hnn _ _) (fun a b => hnn _ _)
      (fun t => hrefl (encode t.label)) X.toList
  | true =>
    simp only [rawDistance, if_true]
    exact unordered_self (fun n => edist (encode n.label) (encode ""))
      (fun n => edist (encode n.label) (encode ""))
      (fun a b => edist (encode a.label) (encode b.label))
      (fun t => hnn _ _) (fun t => hnn _ _) (fun a b => hnn _ _)
      (fun t => hrefl (encode t.label)) X.toList

theorem rawDistance_le_max {E : Type} (A B : Option Node) (encode : String → E)
    (edist : E → E → ℚ) (u : Bool) :
    rawDistance A B encode edist u
      ≤ maxUnary A B encode edist * ((optSize A : ℚ) + (optSize B : ℚ)) := by
  have hcost : ∀ X : Option Node, X = A ∨ X = B →
      costF (fun n => edist (encode n.label) (encode "")) X.toList
        ≤ maxUnary A B encode edist * (optSize X : ℚ) := by
    intro X hX
    have hmem : ∀ n ∈ nodesF X.toList,
        (fun n : Node => edist (encode n.label) (encode "")) n
          ≤ maxUnary A B encode edist := by
      intro n hn
      dsimp only
      apply foldl_max_le_of_mem
      apply List.mem_map.mpr
      refine ⟨n.label, ?_, rfl⟩
      have hlX := label_mem_optLabels X n hn
      rcases hX with rfl | rfl
      · exact List.mem_append.mpr (Or.inl hlX)
      · exact List.mem_append.mpr (Or.inr hlX)
    have := costF_le_max _ (maxUnary A B encode edist) X.toList hmem
    rw [optSize_toList] at this
    exact this
  have hA := hcost A (Or.inl rfl)
  have hB := hcost B (Or.inr rfl)
  have hsplit : maxUnary A B encode edist * ((optSize A : ℚ) + (optSize B : ℚ))
      = maxUnary A B encode edist * (optSize A : ℚ)
        + maxUnary A B encode edist * (optSize B : ℚ) := by ring
  cases u with
  | false =>
    simp only [rawDistance, Bool.false_eq_true, if_false]
    have := fdist_le_delete_insert (fun n => edist (encode n.label) (encode ""))
      (fun n => edist (encode n.label) (encode ""))
      (fun a b => edist (encode a.label) (encode b.label)) A.toList B.toList
    rw [hsplit]
    linarith
  | true =>
    simp only [rawDistance, if_true]
    have := unordered_le_delete_insert (fun n => edist (encode n.label) (encode ""))
      (fun n => edist (encode n.label) (encode ""))
      (fun a b => edist (encode a.label) (encode b.label)) A.toList B.toList
    rw [hsplit]
    linarith

theorem normalized_bounds (a M : ℚ) (ha : 0 ≤ a) (haM : a ≤ M) :
    0 ≤ 2 * a / (M + a) ∧ 2 * a / (M + a) ≤ 1 := by
  by_cases h : M + a = 0
  · rw [h, div_zero]
    norm_num
  · have h0 : 0 ≤ M + a := by linarith
    have hpos : 0 < M + a := lt_of_le_of_ne h0 (Ne.symm h)
    constructor
    · apply div_nonneg <;> linarith
    · rw [div_le_one hpos]
      linarith

/-- Claim C1: for every tree `T` and every cost model in which the embedding
distance of an embedding with itself is 0 and all distances are nonnegative,
comparing `T` with itself returns 0 — for the ordered and the unordered engine
and for both settings of the context flag (and whether or not the result is
normalised). -/
theorem C1_compare_identity {E : Type} (T : Node) (encode : String → E)
    (edist : E → E → ℚ) (hrefl : ∀ e, edist e e = 0) (hnn : ∀ x y, 0 ≤ edist x y)
    (normalize unordered useContext : Bool) :
    compare (some T) (some T) encode edist normalize unordered useContext none
      = Except.ok 0 := by
  show Except.ok (compareCore (some T) (some T) encode edist normalize unordered useContext)
      = Except.ok 0
  congr 1
  obtain ⟨s, hs⟩ : ∃ s, (if useContext then (some T).map tree_with_context else some T)
      = some s := by
    cases useContext with
    | false => exact ⟨T, rfl⟩
    | true => exact ⟨tree_with_context T, rfl⟩
  simp only [compareCore]
  rw [hs]
  rw [rawDistance_self (some s) encode edist hrefl hnn unordered]
  cases normalize with
  | false => simp
  | true => simp

/-- Witness for C1: a concrete single-node tree under the discrete 0/1 distance,
with all three flags set. -/
theorem C1_compare_identity_witness :
    compare (some (Node.mk "a" [] 0)) (some (Node.mk "a" [] 0)) (fun s => s)
      (fun x y : String => if x = y then (0:ℚ) else 1) true true true none
      = Except.ok 0 :=
  C1_compare_identity (Node.mk "a" [] 0) (fun s => s)
    (fun x y : String => if x = y then (0:ℚ) else 1)
    (fun e => by simp)
    (fun x y => by dsimp only; split_ifs <;> norm_num)
    true true true

/-- Claim C2: for two single-node trees labelled "a" and "b", under an embedding
distance that is 0 on identical labels and 1 otherwise (so the unary cost of any
nonempty label is 1), the unordered, unnormalised comparison returns exactly 1 —
one substitution at cost 1 — for either setting of the context flag. -/
theorem C2_single_node_substitution :
    compare (some (Node.mk "a" [] 0)) (some (Node.mk "b" [] 0)) (fun s => s)
      (fun x y : String => if x = y then (0:ℚ) else 1) false true false none
      = Except.ok 1
    ∧ compare (some (Node.mk "a" [] 0)) (some (Node.mk "b" [] 0)) (fun s => s)
      (fun x y : String => if x = y then (0:ℚ) else 1) false true true none
      = Except.ok 1 := by
  have key : umatch (fun n : Node => if n.label = "" then (0:ℚ) else 1)
      (fun n : Node => if n.label = "" then (0:ℚ) else 1)
      (fun a b : Node => if a.label = b.label then (0:ℚ) else 1)
      [Node.mk "a" [] 0] [Node.mk "b" [] 0] = 1 := by
    rw [umatch_cons, pick_cons, udist_def, pick_nil]
    simp [umatch_nil, costF, costT, Node.children, Node.label]
  exact ⟨congrArg Except.ok key, congrArg Except.ok key⟩

/-- Claim C3 counterexample: with a nonnegative embedding distance that violates
no stated hypothesis (substituting "a" for "b" costs 2 while each unary cost is
1), the normalised comparison of the two single-node trees is exactly 1, outside
the claimed half-open interval. -/
theorem C3_normalization_counterexample :
    compare (some (Node.mk "a" [] 0)) (some (Node.mk "b" [] 0)) (fun s => s)
      (fun x y : String => if x = y then (0:ℚ) else if x = "" ∨ y = "" then 1 else 2)
      true false false none = Except.ok 1
    ∧ ¬ ((1:ℚ) < 1) := by
  constructor
  · show Except.ok (compareCore (some (Node.mk "a" [] 0)) (some (Node.mk "b" [] 0))
        (fun s => s)
        (fun x y : String => if x = y then (0:ℚ) else if x = "" ∨ y = "" then 1 else 2)
        true false false) = Except.ok 1
    congr 1
    simp only [compareCore, Bool.false_eq_true, if_false, if_true, rawDistance,
      Option.toList_some]
    rw [fdist_cons _ _ _ _ _ (List.cons_ne_nil _ _) (List.cons_ne_nil _ _)]
    simp [fdist_nil_left, fdist_nil_right, costF, costT, Node.children, Node.label,
      maxUnary, optLabels, extract_sentences, extract_sentences_children, optSize, szT, szF]
    norm_num
  · norm_num

/-- Claim C3 (amended): the normalised comparison result equals
`2*raw / (maxUnaryCost * (sizeA + sizeB) + raw)` computed on the transformed
trees; when both trees are empty the result is 0, and for every nonnegative cost
model the result lies in the closed interval `[0, 1]` — the right endpoint 1 is
attained (see the counterexample), so the half-open interval `[0, 1)` of the
claim is too strong. -/
theorem C3_normalized_range {E : Type} (A B : Option Node) (encode : String → E)
    (edist : E → E → ℚ) (hnn : ∀ x y, 0 ≤ edist x y) (u c : Bool) :
    compare A B encode edist true u c none
      = Except.ok (compareCore A B encode edist true u c)
    ∧ (A = none → B = none → compareCore A B encode edist true u c = 0)
    ∧ (∀ A1 B1, A1 = (if c then A.map tree_with_context else A) →
        B1 = (if c then B.map tree_with_context else B) →
        (A1 ≠ none ∨ B1 ≠ none) →
        compareCore A B encode edist true u c
          = 2 * rawDistance A1 B1 encode edist u /
              (maxUnary A1 B1 encode edist * ((optSize A1 : ℚ) + (optSize B1 : ℚ))
                + rawDistance A1 B1 encode edist u))
    ∧ 0 ≤ compareCore A B encode edist true u c
    ∧ compareCore A B encode edist true u c ≤ 1 := by
  have hcore : ∀ A1 B1, A1 = (if c then A.map tree_with_context else A) →
      B1 = (if c then B.map tree_with_context else B) →
      compareCore A B encode edist true u c
      = (match A1, B1 with
         | none, none => (0:ℚ)
         | _, _ =>
            2 * rawDistance A1 B1 encode edist u /
              (maxUnary A1 B1 encode edist * ((optSize A1 : ℚ) + (optSize B1 : ℚ))
                + rawDistance A1 B1 encode edist u)) := by
    intro A1 B1 h1 h2
    subst h1 h2
    rfl
  have hc := hcore _ _ rfl rfl
  have hbounds : 0 ≤ compareCore A B encode edist true u c
      ∧ compareCore A B encode edist true u c ≤ 1 := by
    rw [hc]
    cases (if c then A.map tree_with_context else A) with
    | none =>
      cases (if c then B.map tree_with_context else B) with
      | none => norm_num
      | some b =>
        exact normalized_bounds _ _ (rawDistance_nonneg _ _ encode edist hnn u)
          (rawDistance_le_max _ _ encode edist u)
    | some a =>
      cases (if c then B.map tree_with_context else B) with
      | none =>
        exact normalized_bounds _ _ (rawDistance_nonneg _ _ encode edist hnn u)
          (rawDistance_le_max _ _ encode edist u)
      | some b =>
        exact normalized_bounds _ _ (rawDistance_nonneg _ _ encode edist hnn u)
          (rawDistance_le_max _ _ encode edist u)
  refine ⟨rfl, ?_, ?_, hbounds.1, hbounds.2⟩
  · intro ha hb
    subst ha hb
    rw [hc]
    cases c <;> rfl
  · intro A1 B1 h1 h2 hne
    rw [hcore A1 B1 h1 h2]
    cases hA : A1 with
    | none =>
      cases hB : B1 with
      | none =>
        exfalso
        rcases hne with h | h
        · exact h hA
        · exact h hB
      | some b => subst hA hB; rfl
    | some a =>
      cases hB : B1 with
      | none => subst hA hB; rfl
      | some b => subst hA hB; rfl

/-- Witness for C3 (amended): the bounds instantiated at the two concrete
single-node trees under the discrete 0/1 distance. -/
theorem C3_normalized_range_witness :
    0 ≤ compareCore (some (Node.mk "a" [] 0)) (some (Node.mk "b" [] 0)) (fun s => s)
        (fun x y : String => if x = y then (0:ℚ) else 1) true false false
    ∧ compareCore (some (Node.mk "a" [] 0)) (some (Node.mk "b" [] 0)) (fun s => s)
        (fun x y : String => if x = y then (0:ℚ) else 1) true false false ≤ 1 :=
  have h := C3_normalized_range (some (Node.mk "a" [] 0)) (some (Node.mk "b" [] 0))
    (fun s => s) (fun x y : String => if x = y then (0:ℚ) else 1)
    (fun x y => by dsimp only; split_ifs <;> norm_num) false false
  ⟨h.2.2.2.1, h.2.2.2.2⟩

/-!  ## The label-keyed cost tables of `precompute_dists` -/

theorem zip_map_snd {E : Type} (enc : String → E) :
    ∀ (ss : List String) (p : String × E), p ∈ ss.zip (ss.map enc) → p.2 = enc p.1 := by
  intro ss
  induction ss with
  | nil =>
    intro p h
    simp at h
  | cons s ss ih =>
    intro p h
    simp only [List.map_cons, List.zip_cons_cons, List.mem_cons] at h
    rcases h with rfl | h
    · rfl
    · exact ih p h

theorem zip_map_keys {E : Type} (enc : String → E) (ss : List String) :
    (ss.zip (ss.map enc)).map Prod.fst = ss := by
  rw [List.map_fst_zip]
  simp

/-- After the weights fold, every key of the processed pair list maps to the
distance of its encoding to the null embedding; other keys are untouched. -/
theorem weights_fold {E : Type} (enc : String → E) (dd : E → E → ℚ) (e0 : E) :
    ∀ (ps : List (String × E)) (w : String → Option ℚ) (s : String),
      (∀ p ∈ ps, p.2 = enc p.1) →
      (ps.foldl (fun w q => dictInsert w q.1 (dd q.2 e0)) w) s
        = if s ∈ ps.map Prod.fst then some (dd (enc s) e0) else w s := by
  intro ps
  induction ps with
  | nil =>
    intro w s h
    simp
  | cons q ps ih =>
    intro w s h
    obtain ⟨k, e⟩ := q
    have hk : e = enc k := h (k, e) (by simp)
    rw [List.foldl_cons]
    rw [ih _ s (fun p hp => h p (by simp [hp]))]
    by_cases hs : s ∈ ps.map Prod.fst
    · simp [hs]
    · by_cases hsk : s = k
      · subst hsk
        simp [hs, dictInsert, hk]
      · simp [hs, hsk, dictInsert]

/-- The weights table built by `precompute_dists` answers every label of either
tree with the distance of its embedding to the empty-string embedding. -/
theorem precompute_weights_eq {E : Type} (tree_a tree_b : Node) (enc : String → E)
    (dd : E → E → ℚ) (s : String)
    (hs : s ∈ extract_sentences tree_a ++ extract_sentences tree_b) :
    (precompute_dists tree_a tree_b enc dd).2.1 s = some (dd (enc s) (enc "")) := by
  show (((extract_sentences tree_a ++ extract_sentences tree_b).zip
      ((extract_sentences tree_a).map enc ++ (extract_sentences tree_b).map enc)).foldl
      (fun w q => dictInsert w q.1 (dd q.2 (enc ""))) (fun _ => none)) s = _
  rw [← List.map_append]
  rw [weights_fold enc dd (enc "") _ _ s (zip_map_snd enc _)]
  rw [zip_map_keys]
  rw [if_pos hs]

/-- The inner fold of the pairwise table touches only its own row. -/
theorem inner_fold_other {E : Type} (dd : E → E → ℚ) (k : String) (e : E) :
    ∀ (qs : List (String × E)) (d : String → Option (String → Option ℚ)) (x : String),
      x ≠ k →
      (qs.foldl (fun d' q => dictInsert d' k
          (dictInsert ((d' k).getD (fun _ => none)) q.1 (dd e q.2))) d) x = d x := by
  intro qs
  induction qs with
  | nil =>
    intro d x hx
    rfl
  | cons q qs ih =>
    intro d x hx
    rw [List.foldl_cons, ih _ x hx]
    simp [dictInsert, hx]

/-- After an inner fold for key `k` with embedding `e`, the row at `k` answers
every processed second key with the pairwise distance, and other second keys as
before. -/
theorem inner_fold_at {E : Type} (enc : String → E) (dd : E → E → ℚ) (k : String) (e : E) :
    ∀ (qs : List (String × E)) (d : String → Option (String → Option ℚ)) (lb : String),
      (∀ q ∈ qs, q.2 = enc q.1) →
      (((qs.foldl (fun d' q => dictInsert d' k
          (dictInsert ((d' k).getD (fun _ => none)) q.1 (dd e q.2))) d) k).getD
        (fun _ => none)) lb
        = if lb ∈ qs.map Prod.fst then some (dd e (enc lb))
          else ((d k).getD (fun _ => none)) lb := by
  intro qs
  induction qs with
  | nil =>
    intro d lb h
    simp
  | cons q qs ih =>
    intro d lb h
    obtain ⟨k2, e2⟩ := q
    have hk2 : e2 = enc k2 := h (k2, e2) (by simp)
    rw [List.foldl_cons]
    rw [ih _ lb (fun p hp => h p (by simp [hp]))]
    have hd1 : (((dictInsert d k
        (dictInsert ((d k).getD (fun _ => none)) k2 (dd e e2))) k).getD (fun _ => none))
        = dictInsert ((d k).getD (fun _ => none)) k2 (dd e e2) := by
      simp [dictInsert]
    rw [hd1]
    by_cases hlb : lb ∈ qs.map Prod.fst
    · simp [hlb]
    · by_cases hk : lb = k2
      · subst hk
        simp [hlb, dictInsert, hk2]
      · simp [hlb, hk, dictInsert]

/-- After the outer fold, the row of every processed first key answers every
second key of `qs` with the pairwise embedding distance. -/
theorem outer_fold_correct {E : Type} (enc : String → E) (dd : E → E → ℚ)
    (qs : List (String × E)) (hqs : ∀ q ∈ qs, q.2 = enc q.1) :
    ∀ (ps : List (String × E)) (d : String → Option (String → Option ℚ)),
      (∀ p ∈ ps, p.2 = enc p.1) →
      ∀ la lb, lb ∈ qs.map Prod.fst →
      (la ∈ ps.map Prod.fst ∨ ((d la).getD (fun _ => none)) lb = some (dd (enc la) (enc lb))) →
      (((ps.foldl (fun d p => qs.foldl (fun d' q => dictInsert d' p.1
          (dictInsert ((d' p.1).getD (fun _ => none)) q.1 (dd p.2 q.2))) d) d) la).getD
        (fun _ => none)) lb
        = some (dd (enc la) (enc lb)) := by
  intro ps
  induction ps with
  | nil =>
    intro d h la lb hlb hcase
    rcases hcase with h' | h'
    · simp at h'
    · simpa using h'
  | cons p ps ih =>
    intro d h la lb hlb hcase
    obtain ⟨k, e⟩ := p
    have hke : e = enc k := h (k, e) (by simp)
    rw [List.foldl_cons]
    apply ih _ (fun p hp => h p (by simp [hp])) la lb hlb
    by_cases hlak : la = k
    · right
      subst hlak
      rw [inner_fold_at enc dd la e qs d lb hqs]
      rw [if_pos hlb, hke]
    · rcases hcase with h' | h'
      · left
        simp only [List.map_cons, List.mem_cons] at h'
        rcases h' with h' | h'
        · exact absurd h' hlak
        · exact h'
      · right
        rw [inner_fold_other dd k e qs d la hlak]
        exact h'

/-- The pairwise table built by `precompute_dists` answers every pair of labels
of the two trees with the distance of their embeddings. -/
theorem precompute_dists_eq {E : Type} (tree_a tree_b : Node) (enc : String → E)
    (dd : E → E → ℚ) (la lb : String)
    (ha : la ∈ extract_sentences tree_a) (hb : lb ∈ extract_sentences tree_b) :
    (((precompute_dists tree_a tree_b enc dd).1 la).getD (fun _ => none)) lb
      = some (dd (enc la) (enc lb)) := by
  have hrepr : (precompute_dists tree_a tree_b enc dd).1
      = ((extract_sentences tree_a).zip ((extract_sentences tree_a).map enc)).foldl
          (fun d p => ((extract_sentences tree_b).zip
              ((extract_sentences tree_b).map enc)).foldl
            (fun d' q => dictInsert d' p.1
              (dictInsert ((d' p.1).getD (fun _ => none)) q.1 (dd p.2 q.2))) d)
          ((extract_sentences tree_a).foldl (fun d s => dictInsert d s (fun _ => none))
            (fun _ => none)) := rfl
  rw [hrepr]
  apply outer_fold_correct enc dd _ (zip_map_snd enc _) _ _ (zip_map_snd enc _) la lb
  · rw [zip_map_keys]
    exact hb
  · left
    rw [zip_map_keys]
    exact ha

theorem label_mem_sentences (t : Node) (n : Node) (h : n ∈ nodesT t) :
    n.label ∈ extract_sentences t := by
  rw [extract_sentences_eq_labels]
  exact List.mem_map_of_mem Node.label h

/-- Claim C10: with a deterministic (elementwise) encoder and `depth_factor = 1`,
the table-driven `text_tree_distance` and the on-demand
`text_tree_distance_w_o_precomputation` agree, for either setting of the context
flag: every lookup the engine performs hits an entry of the precomputed tables
whose value is the on-demand embedding distance. -/
theorem C10_precomputation_refinement {E : Type} (tree_a tree_b : Node)
    (encoder : String → E) (embedding_dist : E → E → ℚ) (use_context : Bool) :
    text_tree_distance tree_a tree_b encoder embedding_dist 1 use_context
      = text_tree_distance_w_o_precomputation tree_a tree_b encoder embedding_dist 1
          use_context := by
  simp only [text_tree_distance, text_tree_distance_w_o_precomputation]
  apply fdist_congr
  · intro n hn
    have hmem : n ∈ nodesT (if use_context then tree_with_context tree_a else tree_a) := by
      simpa [nodesF] using hn
    have hlab := label_mem_sentences _ n hmem
    rw [precompute_weights_eq _ _ encoder embedding_dist (Node.get_label n)
      (List.mem_append_left _ hlab)]
    simp [Node.get_label, Node.get_depth, one_pow]
  · intro n hn
    have hmem : n ∈ nodesT (if use_context then tree_with_context tree_b else tree_b) := by
      simpa [nodesF] using hn
    have hlab := label_mem_sentences _ n hmem
    rw [precompute_weights_eq _ _ encoder embedding_dist (Node.get_label n)
      (List.mem_append_right _ hlab)]
    simp [Node.get_label, Node.get_depth, one_pow]
  · intro a ha b hb
    have hma : a ∈ nodesT (if use_context then tree_with_context tree_a else tree_a) := by
      simpa [nodesF] using ha
    have hmb : b ∈ nodesT (if use_context then tree_with_context tree_b else tree_b) := by
      simpa [nodesF] using hb
    have hla := label_mem_sentences _ a hma
    have hlb := label_mem_sentences _ b hmb
    rw [precompute_dists_eq _ _ encoder embedding_dist (Node.get_label a)
      (Node.get_label b) hla hlb]
    simp [Node.get_label, Node.get_depth, one_pow]

/-- Claim C4 counterexample: for two concrete single-node trees the source
performs three encoder calls, not at most two. -/
theorem C4_encoder_calls_counterexample :
    ¬ ((precompute_dists (Node.mk "a" [] 0) (Node.mk "b" [] 0) (fun s => s)
        (fun _ _ : String => (0:ℚ))).2.2.length ≤ 2) := by
  decide

/-- Claim C4 (amended): during a single comparison, `precompute_dists` (the one
place a comparison consults the encoder) invokes the caller-supplied encode
capability exactly three times, batching all lookups: once on each tree's full
label list and once on the empty string used for unary costs. -/
theorem C4_encoder_calls_batched {E : Type} (tree_a tree_b : Node)
    (encoder : String → E) (embedding_dist : E → E → ℚ) :
    (precompute_dists tree_a tree_b encoder embedding_dist).2.2
      = [Sum.inl (extract_sentences tree_a), Sum.inl (extract_sentences tree_b),
         Sum.inr ""] := rfl
